import Mathlib

/-!
Verification of the Swarming task-scheduling engine against its
natural-language specification.

The development shallowly embeds the scheduler core: the task-id codec
(`task_pack`), the output-chunk store (`task_result.append_output` and
friends), the request-expiration validation (`task_request`), and the
scheduler lifecycle operations (`task_scheduler`).  The Python sources of
`task_pack`, `task_result` and `task_scheduler` are not part of the source
tree (only their unit tests are), so those operations are modelled from the
specification; wherever the unit tests pin a concrete behaviour the model
follows the tests, and each such spot is called out in the doc comment of
the definition.  `task_request._validate_expiration` and `new_request` are
embedded directly from `src/services/swarming/server/task_request.py`.

Timestamps are modelled as integers (seconds), costs and durations as
rationals, byte strings as lists of naturals.
-/

namespace Swarming

/-! # KeyCodec (`task_pack`)

Hexadecimal formatting used by the packed task ids.  `toHex` produces the
lowercase hex digits of a natural number (most significant first), `ofHex`
parses them back. -/

/-- Lowercase hexadecimal digit for a value below 16 (as in Python `%x`). -/
def hexDigit (n : Nat) : Char :=
  if n < 10 then Char.ofNat (48 + n) else Char.ofNat (87 + n)

/-- Value of a lowercase hexadecimal digit, `none` on a non-digit. -/
def hexDigitVal (c : Char) : Option Nat :=
  if 48 ≤ c.toNat ∧ c.toNat ≤ 57 then some (c.toNat - 48)
  else if 97 ≤ c.toNat ∧ c.toNat ≤ 102 then some (c.toNat - 87)
  else none

/-- Accumulator pass of `toHex`; the fuel dominates the number of digits. -/
def toHexAux : Nat → Nat → List Char → List Char
  | 0, _, acc => acc
  | fuel + 1, n, acc =>
    if n < 16 then hexDigit n :: acc
    else toHexAux fuel (n / 16) (hexDigit (n % 16) :: acc)

/-- Lowercase hexadecimal rendering of a natural number, as Python `'%x' % n`. -/
def toHex (n : Nat) : String :=
  String.mk (toHexAux (n + 1) n [])

/-- Fold step of the hexadecimal parser. -/
def ofHexStep (acc : Option Nat) (c : Char) : Option Nat :=
  acc.bind fun v => (hexDigitVal c).map fun d => v * 16 + d

/-- Parse a list of lowercase hexadecimal digits. -/
def ofHexList (l : List Char) : Option Nat :=
  l.foldl ofHexStep (some 0)

/-- Parse a hexadecimal string, `none` when a character is not a hex digit. -/
def ofHex (s : String) : Option Nat :=
  ofHexList s.data

theorem hexDigitVal_hexDigit : ∀ n : Nat, n < 16 → hexDigitVal (hexDigit n) = some n := by
  decide

theorem ofHexStep_hexDigit (v d : Nat) (hd : d < 16) :
    ofHexStep (some v) (hexDigit d) = some (v * 16 + d) := by
  simp [ofHexStep, hexDigitVal_hexDigit d hd]

theorem toHexAux_foldl :
    ∀ (fuel n : Nat), n < 16 ^ fuel → ∀ (acc : List Char),
      List.foldl ofHexStep (some 0) (toHexAux fuel n acc) =
        List.foldl ofHexStep (some n) acc := by
  intro fuel
  induction fuel with
  | zero => intro n hn; simp [Nat.pow_zero] at hn; subst hn; intro acc; rfl
  | succ fuel ih =>
    intro n hn acc
    by_cases h16 : n < 16
    · simp only [toHexAux, if_pos h16, List.foldl_cons,
        ofHexStep_hexDigit 0 n h16, Nat.zero_mul, Nat.zero_add]
    · have hdiv : n / 16 < 16 ^ fuel := by
        rw [Nat.div_lt_iff_lt_mul (by norm_num)]
        calc n < 16 ^ (fuel + 1) := hn
        _ = 16 ^ fuel * 16 := by ring
      simp only [toHexAux, if_neg h16]
      rw [ih (n / 16) hdiv (hexDigit (n % 16) :: acc)]
      rw [List.foldl_cons, ofHexStep_hexDigit _ _ (Nat.mod_lt n (by omega))]
      have : n / 16 * 16 + n % 16 = n := by omega
      rw [this]

theorem lt_sixteen_pow (n : Nat) : n < 16 ^ (n + 1) := by
  have h2 : n + 1 < 2 ^ (n + 1) := Nat.lt_two_pow (n + 1)
  have h16 : 2 ^ (n + 1) ≤ 16 ^ (n + 1) := Nat.pow_le_pow_left (by norm_num) _
  omega

/-- Hexadecimal round trip: parsing the rendering of `n` gives back `n`. -/
theorem ofHex_toHex (n : Nat) : ofHex (toHex n) = some n := by
  have := toHexAux_foldl (n + 1) n (lt_sixteen_pow n) []
  simpa [ofHex, toHex, ofHexList] using this

theorem getLast?_cons_of_ne_nil {α : Type} (a : α) (l : List α) (h : l ≠ []) :
    (a :: l).getLast? = l.getLast? := by
  cases l with
  | nil => exact absurd rfl h
  | cons b t => simp [List.getLast?]

theorem toHexAux_succ (fuel n : Nat) (acc : List Char) :
    toHexAux (fuel + 1) n acc =
      if n < 16 then hexDigit n :: acc
      else toHexAux fuel (n / 16) (hexDigit (n % 16) :: acc) := rfl

theorem toHexAux_getLast? :
    ∀ (fuel n : Nat) (c : Char) (acc : List Char),
      (toHexAux fuel n (c :: acc)).getLast? = (c :: acc).getLast? := by
  intro fuel
  induction fuel with
  | zero => intro n c acc; rfl
  | succ fuel ih =>
    intro n c acc
    by_cases h16 : n < 16
    · rw [toHexAux_succ, if_pos h16]
      exact getLast?_cons_of_ne_nil _ _ (by simp)
    · rw [toHexAux_succ, if_neg h16, ih (n / 16) (hexDigit (n % 16)) (c :: acc)]
      exact getLast?_cons_of_ne_nil _ _ (by simp)

/-- The last hexadecimal digit of `toHex n` is the low nibble of `n`. -/
theorem toHex_data_getLast? (n : Nat) :
    (toHex n).data.getLast? = some (hexDigit (n % 16)) := by
  show (toHexAux (n + 1) n []).getLast? = _
  by_cases h16 : n < 16
  · rw [toHexAux_succ, if_pos h16, Nat.mod_eq_of_lt h16]
    rfl
  · obtain ⟨m, rfl⟩ : ∃ m, n = m + 1 := ⟨n - 1, by omega⟩
    rw [toHexAux_succ, if_neg h16, toHexAux_getLast? (m + 1) ((m + 1) / 16)]
    rfl

/-! ## Task keys and packed ids -/

/-- 63-bit mask applied to a request id when packing it
(`0x7fff_ffff_ffff_ffff` in the specification). -/
def TASK_REQUEST_KEY_ID_MASK : Nat := 0x7fffffffffffffff

/-- Modelled from the spec: the legacy key family's parent shard id is a
fixed hash of the decimal request id (`task_pack` is not under `src/`; in
the legacy scheme the shard is a short digest prefix).  The digest function
itself is irrelevant to every claim, so it is modelled as an abstract total
function of the id. -/
def shardOf (id : Nat) : String := toHex id

/-- A datastore key of a `TaskRequest`: either the newer flat key family or
the legacy family whose parent key embeds a shard id. -/
inductive RequestKey where
  | new (id : Nat)
  | old (shard : String) (id : Nat)
deriving DecidableEq

/-- Modelled from the spec: `task_pack.pack_request_key` (`task_pack.py` is
not under `src/`).  The spec describes the hex of `id XOR mask` with a
family marker; `task_pack_test.py` pins the concrete values
(`pack_request_key` of the new-style key `0x7fffffffffffffee` is `"11"` and
of the legacy key with id `256` is `"10"`), which forces: new family is the
bare lowercase hex of `id XOR mask` (its trailing nibble is the family
marker `1` because new-style ids end in nibble `0xe`), legacy family is the
lowercase hex of `id` with the trailing zero nibble stripped (ending in the
marker `0` because legacy ids end in byte `0x00`). -/
def pack_request_key : RequestKey → String
  | .new id => toHex (id ^^^ TASK_REQUEST_KEY_ID_MASK)
  | .old _ id => toHex (id / 16)

/-- Modelled from the spec: `task_pack.unpack_request_key`, the inverse of
`pack_request_key`.  The family is recognized from the trailing nibble as
pinned by `task_pack_test.py` (`unpack_request_key` accepts `"11"` and
`"10"` and rejects `"2"`). -/
def unpack_request_key (s : String) : Except String RequestKey :=
  if s.data.getLast? = some '1' then
    match ofHex s with
    | some v => .ok (.new (v ^^^ TASK_REQUEST_KEY_ID_MASK))
    | none => .error "MalformedId"
  else if s.data.getLast? = some '0' then
    match ofHex s with
    | some v => .ok (.old (shardOf (v * 16)) (v * 16))
    | none => .error "MalformedId"
  else
    .error "MalformedId"

/-- Modelled from the spec: `task_pack.pack_result_summary_key` appends the
suffix `0` to the packed request id. -/
def pack_result_summary_key (k : RequestKey) : String :=
  pack_request_key k ++ "0"

/-- Modelled from the spec: `task_pack.pack_run_result_key` appends the try
number (1 or 2) to the packed request id. -/
def pack_run_result_key (k : RequestKey) (try_number : Nat) : String :=
  pack_request_key k ++ toString try_number

/-- Strip one trailing `0` hex digit, as the claim's packing formula
prescribes. -/
def stripZeroNibble (s : String) : String :=
  if s.data.getLast? = some '0' then String.mk s.data.dropLast else s

/-- The packing formula exactly as the specification words it, for
comparison with `pack_request_key`: lowercase hex of `id XOR mask`,
trailing zero nibble stripped, PREFIXED with `"1"` for the newer family and
`"0"` for the legacy family. -/
def pack_request_key_claim : RequestKey → String
  | .new id => "1" ++ stripZeroNibble (toHex (id ^^^ TASK_REQUEST_KEY_ID_MASK))
  | .old _ id => "0" ++ stripZeroNibble (toHex (id ^^^ TASK_REQUEST_KEY_ID_MASK))

theorem xor_mask_mod16 (id : Nat) (h : id % 16 = 14) :
    (id ^^^ TASK_REQUEST_KEY_ID_MASK) % 16 = 1 := by
  set v := id ^^^ TASK_REQUEST_KEY_ID_MASK with hv
  have b0 : id.testBit 0 = false := by
    rw [Nat.testBit_to_div_mod]; simp only [decide_eq_false_iff_not]; omega
  have b1 : id.testBit 1 = true := by
    rw [Nat.testBit_to_div_mod]; simp only [decide_eq_true_eq]; omega
  have b2 : id.testBit 2 = true := by
    rw [Nat.testBit_to_div_mod]; simp only [decide_eq_true_eq]; omega
  have b3 : id.testBit 3 = true := by
    rw [Nat.testBit_to_div_mod]; simp only [decide_eq_true_eq]; omega
  have m0 : TASK_REQUEST_KEY_ID_MASK.testBit 0 = true := by decide
  have m1 : TASK_REQUEST_KEY_ID_MASK.testBit 1 = true := by decide
  have m2 : TASK_REQUEST_KEY_ID_MASK.testBit 2 = true := by decide
  have m3 : TASK_REQUEST_KEY_ID_MASK.testBit 3 = true := by decide
  have v0 : v.testBit 0 = true := by rw [hv, Nat.testBit_xor, b0, m0]; rfl
  have v1 : v.testBit 1 = false := by rw [hv, Nat.testBit_xor, b1, m1]; rfl
  have v2 : v.testBit 2 = false := by rw [hv, Nat.testBit_xor, b2, m2]; rfl
  have v3 : v.testBit 3 = false := by rw [hv, Nat.testBit_xor, b3, m3]; rfl
  rw [Nat.testBit_to_div_mod] at v0 v1 v2 v3
  simp only [decide_eq_true_eq, decide_eq_false_iff_not] at v0 v1 v2 v3
  omega

/-- **C8, counterexample.**  On the new-style key pinned by
`task_pack_test.py` (`pack_request_key(ndb.Key('TaskRequest',
0x7fffffffffffffee)) == '11'`), the claim's formula — hex of the XOR with
the trailing zero nibble stripped, then a `"1"`/`"0"` family PREFIX —
produces `"111"`, not the pinned `"11"`. -/
theorem C8_counterexample :
    pack_request_key_claim (RequestKey.new 0x7fffffffffffffee) = "111" ∧
    pack_request_key (RequestKey.new 0x7fffffffffffffee) = "11" ∧
    ("111" : String) ≠ "11" :=
  ⟨by decide, by decide, by decide⟩

/-- **C8, amended.**  `pack_request_key` marks the key family in the
TRAILING nibble, not a prefix: for a newer-family key (ids end in nibble
`0xe`) it returns the lowercase hex of `id XOR 0x7fff_ffff_ffff_ffff`,
which ends in the marker nibble `1`; for a legacy key (ids end in byte
`0x00`) it returns the lowercase hex of `id` with the trailing zero nibble
stripped, ending in the marker `0`; and `unpack_request_key` is its
inverse. -/
theorem C8_pack_unpack :
    (∀ id : Nat, id % 16 = 14 →
      (pack_request_key (RequestKey.new id)).data.getLast? = some '1' ∧
      unpack_request_key (pack_request_key (RequestKey.new id)) =
        Except.ok (RequestKey.new id)) ∧
    (∀ id : Nat, id % 256 = 0 →
      (pack_request_key (RequestKey.old (shardOf id) id)).data.getLast? = some '0' ∧
      unpack_request_key (pack_request_key (RequestKey.old (shardOf id) id)) =
        Except.ok (RequestKey.old (shardOf id) id)) := by
  constructor
  · intro id hid
    have hv : (id ^^^ TASK_REQUEST_KEY_ID_MASK) % 16 = 1 := xor_mask_mod16 id hid
    have hlast : (toHex (id ^^^ TASK_REQUEST_KEY_ID_MASK)).data.getLast? = some '1' := by
      rw [toHex_data_getLast?, hv]; rfl
    refine ⟨hlast, ?_⟩
    show unpack_request_key (toHex (id ^^^ TASK_REQUEST_KEY_ID_MASK)) = _
    simp [unpack_request_key, hlast, ofHex_toHex, Nat.xor_assoc,
      Nat.xor_self, Nat.xor_zero]
  · intro id hid
    have hz : id / 16 % 16 = 0 := by omega
    have hlast : (toHex (id / 16)).data.getLast? = some '0' := by
      rw [toHex_data_getLast?, hz]; rfl
    refine ⟨hlast, ?_⟩
    show unpack_request_key (toHex (id / 16)) = _
    have hdiv : id / 16 * 16 = id := by omega
    simp [unpack_request_key, hlast, ofHex_toHex, hdiv]

/-- **C8, witness.**  The amended statement applied to the two concrete
keys of `task_pack_test.py`. -/
theorem C8_pack_unpack_witness :
    ((0x7fffffffffffffee : Nat) % 16 = 14 ∧
      unpack_request_key (pack_request_key (RequestKey.new 0x7fffffffffffffee)) =
        Except.ok (RequestKey.new 0x7fffffffffffffee)) ∧
    ((256 : Nat) % 256 = 0 ∧
      unpack_request_key (pack_request_key (RequestKey.old (shardOf 256) 256)) =
        Except.ok (RequestKey.old (shardOf 256) 256)) :=
  ⟨⟨by decide, (C8_pack_unpack.1 0x7fffffffffffffee (by decide)).2⟩,
   ⟨by decide, (C8_pack_unpack.2 256 (by decide)).2⟩⟩

/-! # Output chunk store (`task_result.TaskOutput`, `append_output`,
`get_output`)

`task_result.py` is not under `src/`; the store is modelled from the
specification (§3 TaskOutputChunk, §4.4 append_output/get_output) with the
concrete behaviours pinned by `task_result_test.py` (chunk size 100 KiB —
the test expects the split gap `[0, 102397]` for a write 3 bytes before
`2*CHUNK_SIZE`; holes are zero-filled; `gaps` lists the never-written
`[begin, end)` intervals of a chunk). -/

/-- Fixed chunk size (100 KiB). -/
def CHUNK_SIZE : Nat := 100 * 1024

/-- Maximum number of chunks stored per command. -/
def PUT_MAX_CHUNKS : Nat := 1024

/-- Maximum bytes stored per command; the spec fixes
`PUT_MAX_CONTENT = PUT_MAX_CHUNKS × CHUNK_SIZE`. -/
def PUT_MAX_CONTENT : Nat := PUT_MAX_CHUNKS * CHUNK_SIZE

/-- Maximum bytes returned by a read (16 MiB). -/
def FETCH_MAX_CONTENT : Nat := 16 * 1024 * 1024

/-- One stored chunk: its byte content and the sorted `[begin, end)`
intervals inside it that were never written (they read as zero bytes). -/
structure TaskOutputChunk where
  chunk : List Nat
  gaps : List (Nat × Nat)
deriving DecidableEq

/-- A chunk that was never touched. -/
def emptyChunk : TaskOutputChunk := ⟨[], []⟩

/-- Remove the interval `[a, b)` from a gap list, splitting gaps that
straddle the written range (the parts outside `[a, b)` survive). -/
def removeGap (gaps : List (Nat × Nat)) (a b : Nat) : List (Nat × Nat) :=
  gaps.foldr
    (fun g acc =>
      (if g.1 < a then [(g.1, min g.2 a)] else []) ++
      (if b < g.2 then [(max g.1 b, g.2)] else []) ++ acc)
    []

/-- Write `d` at offset `o` inside one chunk (`o + d.length ≤ CHUNK_SIZE`
holds at every call site): overwrite the intersecting range, zero-fill up
to the write start when it lies past the current end (recording the filled
range as a new gap), and update `gaps` so it still describes exactly the
never-written intervals. -/
def chunkWrite (c : TaskOutputChunk) (o : Nat) (d : List Nat) : TaskOutputChunk :=
  if o ≤ c.chunk.length then
    { chunk := c.chunk.take o ++ d ++ c.chunk.drop (o + d.length),
      gaps := removeGap c.gaps o (o + d.length) }
  else
    { chunk := c.chunk ++ List.replicate (o - c.chunk.length) 0 ++ d,
      gaps := c.gaps ++ [(c.chunk.length, o)] }

/-- The per-command chunk store, indexed by chunk number; `none` slots are
chunks that were never created. -/
structure OutputStore where
  chunks : List (Option TaskOutputChunk)
deriving DecidableEq

/-- The store of a command with no output. -/
def emptyStore : OutputStore := ⟨[]⟩

/-- The chunk stored at index `ci` (an untouched chunk when absent). -/
def sChunk (s : OutputStore) (ci : Nat) : TaskOutputChunk :=
  (s.chunks.getD ci none).getD emptyChunk

/-- Replace slot `ci`, first padding the slot list with absent chunks. -/
def setChunk (l : List (Option TaskOutputChunk)) (ci : Nat)
    (c : TaskOutputChunk) : List (Option TaskOutputChunk) :=
  (l ++ List.replicate (ci + 1 - l.length) none).set ci (some c)

/-- Read-modify-write of the single chunk `ci`. -/
def writeAt (s : OutputStore) (ci o : Nat) (d : List Nat) : OutputStore :=
  ⟨setChunk s.chunks ci (chunkWrite (sChunk s ci) o d)⟩

/-- Split a write into spans of at most one chunk each and apply them
(`fuel` dominates the data length; every step consumes at least a byte). -/
def appendOutputAux : Nat → OutputStore → Nat → List Nat → OutputStore
  | 0, s, _, _ => s
  | fuel + 1, s, offset, d =>
    if d = [] then s
    else
      appendOutputAux fuel
        (writeAt s (offset / CHUNK_SIZE) (offset % CHUNK_SIZE)
          (d.take (min (CHUNK_SIZE - offset % CHUNK_SIZE) d.length)))
        (offset + min (CHUNK_SIZE - offset % CHUNK_SIZE) d.length)
        (d.drop (min (CHUNK_SIZE - offset % CHUNK_SIZE) d.length))

/-- Modelled from the spec: `TaskRunResult.append_output` for one command.
Bytes that would land past `PUT_MAX_CONTENT` are dropped (the source logs
a dropped-bytes warning and does not fail); the dropped-byte count is
returned alongside the new store. -/
def append_output (s : OutputStore) (offset : Nat) (d : List Nat) :
    OutputStore × Nat :=
  let keep := min d.length (PUT_MAX_CONTENT - offset)
  (appendOutputAux (d.length + 1) s offset (d.take keep), d.length - keep)

/-- Render one non-final chunk: absent ranges read as zero bytes. -/
def padChunk (c : Option TaskOutputChunk) : List Nat :=
  (c.getD emptyChunk).chunk ++
    List.replicate (CHUNK_SIZE - (c.getD emptyChunk).chunk.length) 0

/-- Concatenate the stored chunks in order; every chunk but the last is
padded to `CHUNK_SIZE` with zero bytes. -/
def renderChunks : List (Option TaskOutputChunk) → List Nat
  | [] => []
  | [c] => (c.getD emptyChunk).chunk
  | c :: rest => padChunk c ++ renderChunks rest

/-- Modelled from the spec: `get_output` for one command — the chunks
concatenated in order, capped at `FETCH_MAX_CONTENT` bytes. -/
def get_output (s : OutputStore) : List Nat :=
  (renderChunks s.chunks).take FETCH_MAX_CONTENT

/-! ## Ghost semantics of a sequence of writes -/

/-- A single `append_output` call: an offset and the data written there. -/
abbrev OutputWrite : Type := Nat × List Nat

/-- One past the last byte a write covers. -/
def writeEnd (w : OutputWrite) : Nat := w.1 + w.2.length

/-- The byte a list of writes puts at absolute offset `i` (`none` when no
write covers `i`); the first covering write wins, which is unambiguous for
non-overlapping writes. -/
def writtenAt (ws : List OutputWrite) (i : Nat) : Option Nat :=
  ws.findSome? fun w => if w.1 ≤ i then w.2[i - w.1]? else none

/-- The highest offset one past any written byte. -/
def maxEnd (ws : List OutputWrite) : Nat :=
  ws.foldr (fun w m => max (writeEnd w) m) 0

/-- The ranges of the writes are pairwise non-overlapping. -/
def DisjointWrites (ws : List OutputWrite) : Prop :=
  ws.Pairwise fun w1 w2 => writeEnd w1 ≤ w2.1 ∨ writeEnd w2 ≤ w1.1

instance decidableDisjointWrites (ws : List OutputWrite) :
    Decidable (DisjointWrites ws) := by
  unfold DisjointWrites
  infer_instance

/-- Apply a sequence of `append_output` calls. -/
def applyWrites (s : OutputStore) (ws : List OutputWrite) : OutputStore :=
  ws.foldl (fun s w => (append_output s w.1 w.2).1) s

/-- Membership of a position in a gap list. -/
def inGaps (gaps : List (Nat × Nat)) (p : Nat) : Prop :=
  ∃ g ∈ gaps, g.1 ≤ p ∧ p < g.2

/-! ## Correctness of the chunk store

`ChunkInv c g` ties one stored chunk to the ghost partial byte map `g` of
its window: stored bytes realize `g` with zero-filled holes, `gaps` marks
exactly the unwritten positions below the stored length, positions past the
stored length are unwritten, and the stored content always ends on a
written byte. -/

/-- Ghost effect of one write on the partial byte map. -/
def override (f : Nat → Option Nat) (off : Nat) (d : List Nat) : Nat → Option Nat :=
  fun i => if off ≤ i ∧ i - off < d.length then d[i - off]? else f i

structure ChunkInv (c : TaskOutputChunk) (g : Nat → Option Nat) : Prop where
  len_le : c.chunk.length ≤ CHUNK_SIZE
  content : ∀ p, p < c.chunk.length → c.chunk[p]? = some ((g p).getD 0)
  beyond : ∀ p, c.chunk.length ≤ p → p < CHUNK_SIZE → g p = none
  gaps_iff : ∀ p, p < c.chunk.length → (inGaps c.gaps p ↔ g p = none)
  gaps_bound : ∀ p, inGaps c.gaps p → p < c.chunk.length
  last_written : ∀ p, p + 1 = c.chunk.length → g p ≠ none

theorem ChunkInv_congr {c : TaskOutputChunk} {g g' : Nat → Option Nat}
    (h : ChunkInv c g) (hgg : ∀ p, p < CHUNK_SIZE → g p = g' p) : ChunkInv c g' where
  len_le := h.len_le
  content := fun p hp => by
    rw [← hgg p (by have := h.len_le; omega)]; exact h.content p hp
  beyond := fun p h1 h2 => by rw [← hgg p h2]; exact h.beyond p h1 h2
  gaps_iff := fun p hp => by
    rw [← hgg p (by have := h.len_le; omega)]; exact h.gaps_iff p hp
  gaps_bound := h.gaps_bound
  last_written := fun p hp => by
    rw [← hgg p (by have := h.len_le; omega)]; exact h.last_written p hp

theorem ChunkInv_empty (g : Nat → Option Nat) (hg : ∀ p, p < CHUNK_SIZE → g p = none) :
    ChunkInv emptyChunk g where
  len_le := by simp [emptyChunk, CHUNK_SIZE]
  content := by intro p hp; simp [emptyChunk] at hp
  beyond := fun p _ => hg p
  gaps_iff := by intro p hp; simp [emptyChunk] at hp
  gaps_bound := by intro p hp; simp [inGaps, emptyChunk] at hp
  last_written := by intro p hp; simp [emptyChunk] at hp

theorem inGaps_nil (p : Nat) : ¬ inGaps [] p := by simp [inGaps]

theorem inGaps_cons (g : Nat × Nat) (gs : List (Nat × Nat)) (p : Nat) :
    inGaps (g :: gs) p ↔ (g.1 ≤ p ∧ p < g.2) ∨ inGaps gs p := by
  simp [inGaps]

theorem inGaps_append (l1 l2 : List (Nat × Nat)) (p : Nat) :
    inGaps (l1 ++ l2) p ↔ inGaps l1 p ∨ inGaps l2 p := by
  constructor
  · rintro ⟨g, hg, h⟩
    rcases List.mem_append.1 hg with h1 | h2
    · exact Or.inl ⟨g, h1, h⟩
    · exact Or.inr ⟨g, h2, h⟩
  · rintro (⟨g, hg, h⟩ | ⟨g, hg, h⟩)
    · exact ⟨g, List.mem_append.2 (Or.inl hg), h⟩
    · exact ⟨g, List.mem_append.2 (Or.inr hg), h⟩

theorem removeGap_cons (g : Nat × Nat) (gs : List (Nat × Nat)) (a b : Nat) :
    removeGap (g :: gs) a b =
      (if g.1 < a then [(g.1, min g.2 a)] else []) ++
      (if b < g.2 then [(max g.1 b, g.2)] else []) ++ removeGap gs a b := rfl

theorem inGaps_left_piece (g : Nat × Nat) (a p : Nat) :
    inGaps (if g.1 < a then [(g.1, min g.2 a)] else []) p ↔
      (g.1 ≤ p ∧ p < min g.2 a) := by
  by_cases h1 : g.1 < a
  · simp [h1, inGaps]
  · simp [h1, inGaps]
    omega

theorem inGaps_right_piece (g : Nat × Nat) (b p : Nat) :
    inGaps (if b < g.2 then [(max g.1 b, g.2)] else []) p ↔
      (max g.1 b ≤ p ∧ p < g.2) := by
  by_cases h2 : b < g.2
  · simp [h2, inGaps]
  · simp [h2, inGaps]
    omega

/-- `removeGap` keeps exactly the gap positions outside the written range. -/
theorem inGaps_removeGap (gaps : List (Nat × Nat)) (a b p : Nat) :
    inGaps (removeGap gaps a b) p ↔ (inGaps gaps p ∧ ¬(a ≤ p ∧ p < b)) := by
  induction gaps with
  | nil => simp [removeGap, inGaps]
  | cons g gs ih =>
    rw [removeGap_cons, inGaps_append, inGaps_append, inGaps_cons, ih,
      inGaps_left_piece g a p, inGaps_right_piece g b p]
    constructor
    · rintro ((h | h) | ⟨hG, hC⟩)
      · exact ⟨Or.inl (by omega), by omega⟩
      · exact ⟨Or.inl (by omega), by omega⟩
      · exact ⟨Or.inr hG, hC⟩
    · rintro ⟨hL | hG, hC⟩
      · by_cases hpa : p < a
        · exact Or.inl (Or.inl (by omega))
        · exact Or.inl (Or.inr (by omega))
      · exact Or.inr ⟨hG, hC⟩

theorem chunkWrite_length (c : TaskOutputChunk) (o : Nat) (d : List Nat) :
    (chunkWrite c o d).chunk.length = max c.chunk.length (o + d.length) := by
  unfold chunkWrite
  by_cases h : o ≤ c.chunk.length <;>
    simp [h, List.length_append, List.length_take, List.length_drop,
      List.length_replicate] <;> omega

/-- Byte-level characterization of `chunkWrite`. -/
theorem chunkWrite_getElem? (c : TaskOutputChunk) (o : Nat) (d : List Nat) (p : Nat) :
    (chunkWrite c o d).chunk[p]? =
      if o ≤ p ∧ p - o < d.length then d[p - o]?
      else if p < c.chunk.length then c.chunk[p]?
      else if p < o then some 0
      else none := by
  unfold chunkWrite
  by_cases hoL : o ≤ c.chunk.length
  · rw [if_pos hoL]
    show ((List.take o c.chunk ++ d) ++ List.drop (o + d.length) c.chunk)[p]? = _
    rw [List.append_assoc, List.getElem?_append, List.length_take, Nat.min_eq_left hoL]
    by_cases hpo : p < o
    · rw [if_pos hpo, List.getElem?_take, if_pos hpo,
        if_neg (show ¬(o ≤ p ∧ p - o < d.length) from by omega),
        if_pos (show p < c.chunk.length from by omega)]
    · rw [if_neg hpo, List.getElem?_append]
      by_cases hwd : p - o < d.length
      · rw [if_pos hwd, if_pos (show o ≤ p ∧ p - o < d.length from ⟨by omega, hwd⟩)]
      · rw [if_neg hwd, List.getElem?_drop]
        have hidx : o + d.length + (p - o - d.length) = p := by omega
        rw [hidx]
        by_cases hpL : p < c.chunk.length
        · rw [if_neg (show ¬(o ≤ p ∧ p - o < d.length) from by omega), if_pos hpL]
        · rw [if_neg (show ¬(o ≤ p ∧ p - o < d.length) from by omega), if_neg hpL,
            if_neg (show ¬p < o from by omega),
            List.getElem?_eq_none (show c.chunk.length ≤ p from by omega)]
  · rw [if_neg hoL]
    show ((c.chunk ++ List.replicate (o - c.chunk.length) 0) ++ d)[p]? = _
    rw [List.append_assoc, List.getElem?_append]
    by_cases hpL : p < c.chunk.length
    · rw [if_pos hpL,
        if_neg (show ¬(o ≤ p ∧ p - o < d.length) from by omega), if_pos hpL]
    · rw [if_neg hpL, List.getElem?_append, List.length_replicate]
      by_cases hpo : p < o
      · rw [if_pos (show p - c.chunk.length < o - c.chunk.length from by omega),
          List.getElem?_replicate,
          if_pos (show p - c.chunk.length < o - c.chunk.length from by omega),
          if_neg (show ¬(o ≤ p ∧ p - o < d.length) from by omega),
          if_neg hpL, if_pos hpo]
      · rw [if_neg (show ¬(p - c.chunk.length < o - c.chunk.length) from by omega)]
        have hidx : p - c.chunk.length - (o - c.chunk.length) = p - o := by omega
        rw [hidx]
        by_cases hwd : p - o < d.length
        · rw [if_pos (show o ≤ p ∧ p - o < d.length from ⟨by omega, hwd⟩)]
        · rw [if_neg (show ¬(o ≤ p ∧ p - o < d.length) from by omega),
            if_neg hpL, if_neg hpo,
            List.getElem?_eq_none (show d.length ≤ p - o from by omega)]

theorem inGaps_singleton (x : Nat × Nat) (p : Nat) :
    inGaps [x] p ↔ (x.1 ≤ p ∧ p < x.2) := by
  simp [inGaps]

/-- Gap characterization of `chunkWrite`: afterwards a position is a gap
iff it was a gap before or lies in the freshly zero-filled range, and is
not covered by the write. -/
theorem inGaps_chunkWrite (c : TaskOutputChunk) (o : Nat) (d : List Nat) (p : Nat)
    (hbound : ∀ q, inGaps c.gaps q → q < c.chunk.length) :
    inGaps (chunkWrite c o d).gaps p ↔
      ((inGaps c.gaps p ∨ (c.chunk.length ≤ p ∧ p < o)) ∧
        ¬(o ≤ p ∧ p < o + d.length)) := by
  unfold chunkWrite
  by_cases hoL : o ≤ c.chunk.length
  · rw [if_pos hoL]
    show inGaps (removeGap c.gaps o (o + d.length)) p ↔ _
    rw [inGaps_removeGap]
    constructor
    · rintro ⟨h, hw⟩; exact ⟨Or.inl h, hw⟩
    · rintro ⟨h | h, hw⟩
      · exact ⟨h, hw⟩
      · omega
  · rw [if_neg hoL]
    show inGaps (c.gaps ++ [(c.chunk.length, o)]) p ↔ _
    rw [inGaps_append, inGaps_singleton]
    constructor
    · rintro (h | h)
      · have := hbound p h
        exact ⟨Or.inl h, by omega⟩
      · exact ⟨Or.inr h, by omega⟩
    · rintro ⟨h | h, hw⟩
      · exact Or.inl h
      · exact Or.inr h

/-- `chunkWrite` preserves the chunk invariant, the ghost map being
overridden on the (previously unwritten) span of the write. -/
theorem chunkWrite_inv (c : TaskOutputChunk) (g : Nat → Option Nat) (o : Nat)
    (d : List Nat) (hinv : ChunkInv c g) (hcap : o + d.length ≤ CHUNK_SIZE)
    (hd : d ≠ []) (_hfresh : ∀ p, o ≤ p → p < o + d.length → g p = none) :
    ChunkInv (chunkWrite c o d) (override g o d) := by
  have hdl : 0 < d.length := List.length_pos.2 hd
  refine ⟨?_, ?_, ?_, ?_, ?_, ?_⟩
  · rw [chunkWrite_length]
    have := hinv.len_le
    omega
  · intro p hp
    rw [chunkWrite_length] at hp
    simp only [override]
    rw [chunkWrite_getElem?]
    by_cases hw : o ≤ p ∧ p - o < d.length
    · rw [if_pos hw, if_pos hw, List.getElem?_eq_getElem hw.2]
      rfl
    · rw [if_neg hw, if_neg hw]
      by_cases hpL : p < c.chunk.length
      · rw [if_pos hpL]
        exact hinv.content p hpL
      · rw [if_neg hpL, if_pos (show p < o from by omega)]
        rw [hinv.beyond p (by omega) (by omega)]
        rfl
  · intro p h1 h2
    rw [chunkWrite_length] at h1
    simp only [override]
    rw [if_neg (show ¬(o ≤ p ∧ p - o < d.length) from by omega)]
    exact hinv.beyond p (by omega) h2
  · intro p hp
    rw [chunkWrite_length] at hp
    rw [inGaps_chunkWrite c o d p hinv.gaps_bound]
    simp only [override]
    by_cases hw : o ≤ p ∧ p - o < d.length
    · rw [if_pos hw, List.getElem?_eq_getElem hw.2]
      exact iff_of_false (fun h => h.2 ⟨hw.1, by omega⟩) (by simp)
    · rw [if_neg hw]
      by_cases hpL : p < c.chunk.length
      · rw [← hinv.gaps_iff p hpL]
        constructor
        · rintro ⟨h | h, _⟩
          · exact h
          · omega
        · intro h
          exact ⟨Or.inl h, by omega⟩
      · have hpo : p < o := by omega
        have hg : g p = none := hinv.beyond p (by omega) (by omega)
        constructor
        · intro _; exact hg
        · intro _
          exact ⟨Or.inr ⟨by omega, hpo⟩, by omega⟩
  · intro p hp
    rw [inGaps_chunkWrite c o d p hinv.gaps_bound] at hp
    rw [chunkWrite_length]
    rcases hp with ⟨h | h, _⟩
    · have := hinv.gaps_bound p h
      omega
    · omega
  · intro p hp
    rw [chunkWrite_length] at hp
    simp only [override]
    by_cases hw : o ≤ p ∧ p - o < d.length
    · rw [if_pos hw, List.getElem?_eq_getElem hw.2]
      simp
    · rw [if_neg hw]
      exact hinv.last_written p (by omega)

/-! ## Store-level abstraction -/

/-- The whole store realizes the ghost partial byte map `f`: every chunk
window satisfies `ChunkInv`, and the stored chunk list never ends in an
absent or empty chunk (the store only grows up to a written byte). -/
structure StoreAbs (s : OutputStore) (f : Nat → Option Nat) : Prop where
  chunks_inv : ∀ ci, ChunkInv (sChunk s ci) (fun p => f (ci * CHUNK_SIZE + p))
  last_full : s.chunks = [] ∨
    ∃ c, s.chunks.getLast? = some (some c) ∧ 0 < c.chunk.length

theorem StoreAbs_congr {s : OutputStore} {f f' : Nat → Option Nat}
    (h : StoreAbs s f) (hff : ∀ i, f i = f' i) : StoreAbs s f' where
  chunks_inv := fun ci =>
    ChunkInv_congr (h.chunks_inv ci) (fun p _ => hff (ci * CHUNK_SIZE + p))
  last_full := h.last_full

theorem StoreAbs_empty : StoreAbs emptyStore (fun _ => none) where
  chunks_inv := fun _ => ChunkInv_empty _ (fun _ _ => rfl)
  last_full := Or.inl rfl

theorem sChunk_eq_getElem? (s : OutputStore) (ci : Nat) :
    sChunk s ci = ((s.chunks[ci]?).getD none).getD emptyChunk := by
  simp [sChunk, List.getD_eq_getElem?_getD]

theorem length_setChunk (l : List (Option TaskOutputChunk)) (ci : Nat)
    (c : TaskOutputChunk) : (setChunk l ci c).length = max l.length (ci + 1) := by
  simp [setChunk, List.length_set, List.length_append, List.length_replicate]
  omega

theorem getElem?_setChunk_self (l : List (Option TaskOutputChunk)) (ci : Nat)
    (c : TaskOutputChunk) : (setChunk l ci c)[ci]? = some (some c) := by
  apply List.getElem?_set_self
  simp [List.length_append, List.length_replicate]
  omega

theorem getElem?_setChunk_ne (l : List (Option TaskOutputChunk)) (ci cj : Nat)
    (c : TaskOutputChunk) (h : cj ≠ ci) :
    (setChunk l ci c)[cj]? =
      if cj < l.length then l[cj]?
      else if cj < ci + 1 then some none
      else none := by
  rw [setChunk, List.getElem?_set_ne (Ne.symm h), List.getElem?_append]
  by_cases hj : cj < l.length
  · rw [if_pos hj, if_pos hj]
  · rw [if_neg hj, if_neg hj, List.getElem?_replicate]
    by_cases hj2 : cj < ci + 1
    · rw [if_pos (by omega), if_pos hj2]
    · rw [if_neg (by omega), if_neg hj2]

theorem sChunk_writeAt_self (s : OutputStore) (ci o : Nat) (d : List Nat) :
    sChunk (writeAt s ci o d) ci = chunkWrite (sChunk s ci) o d := by
  rw [sChunk_eq_getElem?]
  show (((setChunk s.chunks ci _)[ci]?).getD none).getD emptyChunk = _
  rw [getElem?_setChunk_self]
  rfl

theorem sChunk_writeAt_ne (s : OutputStore) (ci cj o : Nat) (d : List Nat)
    (h : cj ≠ ci) : sChunk (writeAt s ci o d) cj = sChunk s cj := by
  rw [sChunk_eq_getElem?, sChunk_eq_getElem?]
  show (((setChunk s.chunks ci _)[cj]?).getD none).getD emptyChunk = _
  rw [getElem?_setChunk_ne _ _ _ _ h]
  by_cases hj : cj < s.chunks.length
  · rw [if_pos hj]
  · rw [if_neg hj, List.getElem?_eq_none (by omega)]
    by_cases hj2 : cj < ci + 1
    · rw [if_pos hj2]
      rfl
    · rw [if_neg hj2]

/-- Adjacent chunk windows are disjoint: a write confined to chunk `ci`
cannot touch a position of a different chunk window. -/
theorem window_disjoint (ci cj o dl p : Nat) (hne : cj ≠ ci) (hp : p < CHUNK_SIZE)
    (hcap : o + dl ≤ CHUNK_SIZE) :
    ¬(ci * CHUNK_SIZE + o ≤ cj * CHUNK_SIZE + p ∧
      cj * CHUNK_SIZE + p < ci * CHUNK_SIZE + o + dl) := by
  rcases Nat.lt_or_ge cj ci with h | h
  · rintro ⟨h1, _⟩
    have hm : (cj + 1) * CHUNK_SIZE ≤ ci * CHUNK_SIZE :=
      Nat.mul_le_mul_right _ h
    rw [Nat.succ_mul] at hm
    omega
  · rintro ⟨_, h2⟩
    have hci : ci < cj := by omega
    have hm : (ci + 1) * CHUNK_SIZE ≤ cj * CHUNK_SIZE :=
      Nat.mul_le_mul_right _ hci
    rw [Nat.succ_mul] at hm
    omega

/-- One single-chunk write preserves the store abstraction. -/
theorem writeAt_abs (s : OutputStore) (f : Nat → Option Nat) (habs : StoreAbs s f)
    (ci o : Nat) (d : List Nat) (ho : o + d.length ≤ CHUNK_SIZE) (hd : d ≠ [])
    (hfresh : ∀ p, o ≤ p → p < o + d.length → f (ci * CHUNK_SIZE + p) = none) :
    StoreAbs (writeAt s ci o d) (override f (ci * CHUNK_SIZE + o) d) := by
  have hdl : 0 < d.length := List.length_pos.2 hd
  constructor
  · intro cj
    by_cases hcj : cj = ci
    · subst hcj
      rw [sChunk_writeAt_self]
      refine ChunkInv_congr
        (chunkWrite_inv (sChunk s cj) _ o d (habs.chunks_inv cj) ho hd hfresh) ?_
      intro p _
      simp only [override]
      by_cases hc : o ≤ p ∧ p - o < d.length
      · rw [if_pos hc,
          if_pos (show cj * CHUNK_SIZE + o ≤ cj * CHUNK_SIZE + p ∧
            cj * CHUNK_SIZE + p - (cj * CHUNK_SIZE + o) < d.length from
            ⟨by omega, by omega⟩)]
        congr 1
        omega
      · rw [if_neg hc,
          if_neg (show ¬(cj * CHUNK_SIZE + o ≤ cj * CHUNK_SIZE + p ∧
            cj * CHUNK_SIZE + p - (cj * CHUNK_SIZE + o) < d.length) from by omega)]
    · rw [sChunk_writeAt_ne _ _ _ _ _ hcj]
      refine ChunkInv_congr (habs.chunks_inv cj) ?_
      intro p hp
      simp only [override]
      rw [if_neg (show ¬(ci * CHUNK_SIZE + o ≤ cj * CHUNK_SIZE + p ∧
          cj * CHUNK_SIZE + p - (ci * CHUNK_SIZE + o) < d.length) from ?_)]
      intro ⟨h1, h2⟩
      exact window_disjoint ci cj o d.length p hcj hp ho ⟨h1, by omega⟩
  · right
    show ∃ c, (setChunk s.chunks ci _).getLast? = some (some c) ∧ _
    rw [List.getLast?_eq_getElem?, length_setChunk]
    by_cases hlen : s.chunks.length ≤ ci + 1
    · have hmax : max s.chunks.length (ci + 1) = ci + 1 := by omega
      rw [hmax]
      refine ⟨chunkWrite (sChunk s ci) o d, ?_, ?_⟩
      · simpa using getElem?_setChunk_self s.chunks ci _
      · rw [chunkWrite_length]
        omega
    · have hmax : max s.chunks.length (ci + 1) = s.chunks.length := by omega
      rw [hmax]
      rcases habs.last_full with hnil | ⟨c, hc, hclen⟩
      · rw [hnil] at hlen
        simp at hlen
      · refine ⟨c, ?_, hclen⟩
        rw [List.getLast?_eq_getElem?] at hc
        rw [getElem?_setChunk_ne _ _ _ _ (by omega),
          if_pos (by omega)]
        exact hc

theorem override_outside (f : Nat → Option Nat) (off : Nat) (d : List Nat) (i : Nat)
    (h : ¬(off ≤ i ∧ i - off < d.length)) : override f off d i = f i := if_neg h

theorem override_empty (f : Nat → Option Nat) (off i : Nat) :
    override f off [] i = f i := by
  simp [override]

/-- Splitting one write into a prefix and the rest overrides the same map. -/
theorem override_split (f : Nat → Option Nat) (off n : Nat) (d : List Nat)
    (hn : n ≤ d.length) (i : Nat) :
    override (override f off (d.take n)) (off + n) (d.drop n) i =
      override f off d i := by
  simp only [override, List.length_take, List.length_drop, Nat.min_eq_left hn]
  by_cases h1 : off + n ≤ i ∧ i - (off + n) < d.length - n
  · rw [if_pos h1, if_pos (show off ≤ i ∧ i - off < d.length from by omega),
      List.getElem?_drop]
    congr 1
    omega
  · rw [if_neg h1]
    by_cases h2 : off ≤ i ∧ i - off < n
    · rw [if_pos h2, if_pos (show off ≤ i ∧ i - off < d.length from by omega),
        List.getElem?_take, if_pos h2.2]
    · rw [if_neg h2, if_neg (show ¬(off ≤ i ∧ i - off < d.length) from by omega)]

theorem appendOutputAux_succ (fuel : Nat) (s : OutputStore) (offset : Nat)
    (d : List Nat) :
    appendOutputAux (fuel + 1) s offset d =
      if d = [] then s
      else
        appendOutputAux fuel
          (writeAt s (offset / CHUNK_SIZE) (offset % CHUNK_SIZE)
            (d.take (min (CHUNK_SIZE - offset % CHUNK_SIZE) d.length)))
          (offset + min (CHUNK_SIZE - offset % CHUNK_SIZE) d.length)
          (d.drop (min (CHUNK_SIZE - offset % CHUNK_SIZE) d.length)) := rfl

theorem CHUNK_SIZE_pos : 0 < CHUNK_SIZE := by norm_num [CHUNK_SIZE]

/-- The chunk-splitting recursion realizes the whole write. -/
theorem appendOutputAux_abs :
    ∀ (fuel : Nat) (s : OutputStore) (f : Nat → Option Nat) (offset : Nat)
      (d : List Nat), StoreAbs s f → d.length < fuel →
      (∀ i, offset ≤ i → i < offset + d.length → f i = none) →
      StoreAbs (appendOutputAux fuel s offset d) (override f offset d) := by
  intro fuel
  induction fuel with
  | zero => intro s f offset d _ h; omega
  | succ fuel ih =>
    intro s f offset d habs hfuel hfresh
    by_cases hnil : d = []
    · subst hnil
      rw [appendOutputAux_succ, if_pos rfl]
      exact StoreAbs_congr habs (fun i => (override_empty f offset i).symm)
    · rw [appendOutputAux_succ, if_neg hnil]
      have hdl : 0 < d.length := List.length_pos.2 hnil
      have hco : offset % CHUNK_SIZE < CHUNK_SIZE := Nat.mod_lt offset CHUNK_SIZE_pos
      have hoff : offset / CHUNK_SIZE * CHUNK_SIZE + offset % CHUNK_SIZE = offset :=
        Nat.div_add_mod' offset CHUNK_SIZE
      set n := min (CHUNK_SIZE - offset % CHUNK_SIZE) d.length with hn
      have hn1 : 1 ≤ n := by omega
      have hnd : n ≤ d.length := by omega
      have htlen : (d.take n).length = n := by
        rw [List.length_take]
        omega
      have hW : StoreAbs
          (writeAt s (offset / CHUNK_SIZE) (offset % CHUNK_SIZE) (d.take n))
          (override f (offset / CHUNK_SIZE * CHUNK_SIZE + offset % CHUNK_SIZE)
            (d.take n)) := by
        refine writeAt_abs s f habs (offset / CHUNK_SIZE) (offset % CHUNK_SIZE)
          (d.take n) ?_ ?_ ?_
        · rw [htlen]
          omega
        · rw [← List.length_pos, htlen]
          omega
        · intro p h1 h2
          rw [htlen] at h2
          apply hfresh
          · omega
          · omega
      rw [hoff] at hW
      have hresult := ih
        (writeAt s (offset / CHUNK_SIZE) (offset % CHUNK_SIZE) (d.take n))
        (override f offset (d.take n)) (offset + n) (d.drop n) hW
        (by rw [List.length_drop]; omega)
        (by
          intro i h1 h2
          rw [List.length_drop] at h2
          rw [override_outside _ _ _ _ (by rw [htlen]; omega)]
          exact hfresh i (by omega) (by omega))
      exact StoreAbs_congr hresult (fun i => override_split f offset n d hnd i)

/-- `append_output` within the put cap realizes the whole write. -/
theorem append_output_fst_abs (s : OutputStore) (f : Nat → Option Nat)
    (offset : Nat) (d : List Nat) (habs : StoreAbs s f)
    (hfresh : ∀ i, offset ≤ i → i < offset + d.length → f i = none)
    (hcap : offset + d.length ≤ PUT_MAX_CONTENT) :
    StoreAbs ((append_output s offset d).1) (override f offset d) := by
  have hkeep : min d.length (PUT_MAX_CONTENT - offset) = d.length := by omega
  show StoreAbs
    (appendOutputAux (d.length + 1) s offset
      (d.take (min d.length (PUT_MAX_CONTENT - offset)))) _
  rw [hkeep, List.take_length]
  exact appendOutputAux_abs _ _ _ _ _ habs (by omega) hfresh

/-! ## Ghost map of a write list -/

/-- Apply the overrides of a list of writes in order. -/
def overrideAll (f : Nat → Option Nat) (ws : List OutputWrite) : Nat → Option Nat :=
  ws.foldl (fun g w => override g w.1 w.2) f

theorem applyWrites_cons (s : OutputStore) (w : OutputWrite)
    (ws : List OutputWrite) :
    applyWrites s (w :: ws) = applyWrites ((append_output s w.1 w.2).1) ws := rfl

/-- Applying a disjoint write list from any abstract state realizes all its
overrides. -/
theorem applyWrites_abs :
    ∀ (ws : List OutputWrite) (s : OutputStore) (f : Nat → Option Nat),
      StoreAbs s f → DisjointWrites ws →
      (∀ w ∈ ws, writeEnd w ≤ PUT_MAX_CONTENT) →
      (∀ w ∈ ws, ∀ i, w.1 ≤ i → i < writeEnd w → f i = none) →
      StoreAbs (applyWrites s ws) (overrideAll f ws) := by
  intro ws
  induction ws with
  | nil => intro s f habs _ _ _; exact habs
  | cons w ws ih =>
    intro s f habs hdisj hcap hfresh
    rw [applyWrites_cons]
    have h1 : StoreAbs ((append_output s w.1 w.2).1) (override f w.1 w.2) :=
      append_output_fst_abs s f w.1 w.2 habs
        (fun i hi1 hi2 => hfresh w (List.mem_cons_self w ws) i hi1 hi2)
        (hcap w (List.mem_cons_self w ws))
    apply ih _ _ h1 (List.pairwise_cons.1 hdisj).2
      (fun w' hw' => hcap w' (List.mem_cons_of_mem w hw'))
    intro w' hw' i h1i h2i
    have hne := (List.pairwise_cons.1 hdisj).1 w' hw'
    rw [override_outside _ _ _ _ ?_]
    · exact hfresh w' (List.mem_cons_of_mem w hw') i h1i h2i
    · rintro ⟨ha, hb⟩
      unfold writeEnd at hne h2i
      rcases hne with h | h <;> omega

theorem writtenAt_cons (w : OutputWrite) (ws : List OutputWrite) (i : Nat) :
    writtenAt (w :: ws) i =
      ((if w.1 ≤ i then w.2[i - w.1]? else none).or (writtenAt ws i)) := by
  rw [writtenAt, List.findSome?_cons]
  cases h : (if w.1 ≤ i then w.2[i - w.1]? else none) with
  | none => simp [writtenAt]
  | some v => simp

/-- For disjoint writes the fold of overrides computes the first-match
lookup. -/
theorem overrideAll_eq :
    ∀ (ws : List OutputWrite) (f : Nat → Option Nat) (i : Nat), DisjointWrites ws →
      overrideAll f ws i = (writtenAt ws i).or (f i) := by
  intro ws
  induction ws with
  | nil => intro f i _; simp [overrideAll, writtenAt, List.findSome?_nil]
  | cons w ws ih =>
    intro f i hdisj
    show overrideAll (override f w.1 w.2) ws i = _
    rw [ih _ _ (List.pairwise_cons.1 hdisj).2, writtenAt_cons]
    by_cases hcov : w.1 ≤ i ∧ i - w.1 < w.2.length
    · have hz : writtenAt ws i = none := by
        rw [writtenAt, List.findSome?_eq_none_iff]
        intro w' hw'
        have hne := (List.pairwise_cons.1 hdisj).1 w' hw'
        by_cases h1 : w'.1 ≤ i
        · rw [if_pos h1, List.getElem?_eq_none]
          unfold writeEnd at hne
          rcases hne with h | h <;> omega
        · rw [if_neg h1]
      rw [hz, if_pos hcov.1, List.getElem?_eq_getElem hcov.2]
      simp [override, hcov]
    · have hlook : (if w.1 ≤ i then w.2[i - w.1]? else none) = none := by
        by_cases h1 : w.1 ≤ i
        · rw [if_pos h1, List.getElem?_eq_none (by omega)]
        · rw [if_neg h1]
      rw [hlook, override_outside _ _ _ _ hcov]
      simp

/-- The ghost map of a disjoint write list over the empty store. -/
theorem overrideAll_none (ws : List OutputWrite) (i : Nat)
    (hdisj : DisjointWrites ws) :
    overrideAll (fun _ => none) ws i = writtenAt ws i := by
  rw [overrideAll_eq ws _ i hdisj]
  simp

/-! ## Rendering the store into the output byte string -/

/-- Length of the rendered output: full chunks for all but the last slot,
the stored length for the last. -/
def renderLen : List (Option TaskOutputChunk) → Nat
  | [] => 0
  | [c] => (c.getD emptyChunk).chunk.length
  | _ :: rest => CHUNK_SIZE + renderLen rest

theorem renderLen_two (c r : Option TaskOutputChunk)
    (rs : List (Option TaskOutputChunk)) :
    renderLen (c :: r :: rs) = CHUNK_SIZE + renderLen (r :: rs) := rfl

theorem renderChunks_two (c r : Option TaskOutputChunk)
    (rs : List (Option TaskOutputChunk)) :
    renderChunks (c :: r :: rs) = padChunk c ++ renderChunks (r :: rs) := rfl

theorem padChunk_length (c : Option TaskOutputChunk)
    (h : (c.getD emptyChunk).chunk.length ≤ CHUNK_SIZE) :
    (padChunk c).length = CHUNK_SIZE := by
  simp [padChunk]
  omega

theorem padChunk_getElem? (c : Option TaskOutputChunk)
    (h : (c.getD emptyChunk).chunk.length ≤ CHUNK_SIZE) (i : Nat) :
    (padChunk c)[i]? =
      if i < (c.getD emptyChunk).chunk.length then (c.getD emptyChunk).chunk[i]?
      else if i < CHUNK_SIZE then some 0
      else none := by
  rw [padChunk, List.getElem?_append]
  by_cases h1 : i < (c.getD emptyChunk).chunk.length
  · rw [if_pos h1, if_pos h1]
  · rw [if_neg h1, if_neg h1, List.getElem?_replicate]
    by_cases h2 : i < CHUNK_SIZE
    · rw [if_pos (by omega), if_pos h2]
    · rw [if_neg (by omega), if_neg h2]

set_option maxRecDepth 4096 in
/-- The rendered output realizes the ghost byte map: it has length
`renderLen`, its bytes are the written values with zero-filled holes, and
nothing is written at or past its end. -/
theorem render_spec :
    ∀ (l : List (Option TaskOutputChunk)) (g : Nat → Option Nat),
      (∀ ci, ChunkInv (((l[ci]?).getD none).getD emptyChunk)
        (fun p => g (ci * CHUNK_SIZE + p))) →
      ((renderChunks l).length = renderLen l ∧
       (∀ i, i < renderLen l → (renderChunks l)[i]? = some ((g i).getD 0)) ∧
       (∀ i, renderLen l ≤ i → g i = none)) := by
  intro l
  induction l with
  | nil =>
    intro g habs
    refine ⟨rfl, by intro i hi; simp [renderLen] at hi, ?_⟩
    intro i _
    have hinv := habs (i / CHUNK_SIZE)
    rw [List.getElem?_eq_none (by simp)] at hinv
    have := hinv.beyond (i % CHUNK_SIZE) (by simp [emptyChunk])
      (Nat.mod_lt i CHUNK_SIZE_pos)
    rwa [Nat.div_add_mod' i CHUNK_SIZE] at this
  | cons c rest ih =>
    intro g habs
    have h0 : ChunkInv ((c.getD emptyChunk))
        (fun p => g (0 * CHUNK_SIZE + p)) := by
      have := habs 0
      rwa [List.getElem?_cons_zero] at this
    have h0' : ChunkInv (c.getD emptyChunk) g :=
      ChunkInv_congr h0 (fun p _ => by norm_num)
    cases rest with
    | nil =>
      refine ⟨rfl, ?_, ?_⟩
      · intro i hi
        exact h0'.content i hi
      · intro i hi
        by_cases hCS : i < CHUNK_SIZE
        · exact h0'.beyond i hi hCS
        · have hinv := habs (i / CHUNK_SIZE)
          have hd1 : 1 ≤ i / CHUNK_SIZE := by
            rw [Nat.le_div_iff_mul_le CHUNK_SIZE_pos]
            omega
          rw [List.getElem?_eq_none (by simp; omega)] at hinv
          have := hinv.beyond (i % CHUNK_SIZE) (by simp [emptyChunk])
            (Nat.mod_lt i CHUNK_SIZE_pos)
          rwa [Nat.div_add_mod' i CHUNK_SIZE] at this
    | cons r rs =>
      have hrest : ∀ ci, ChunkInv ((((r :: rs)[ci]?).getD none).getD emptyChunk)
          (fun p => (fun q => g (CHUNK_SIZE + q)) (ci * CHUNK_SIZE + p)) := by
        intro ci
        have := habs (ci + 1)
        rw [List.getElem?_cons_succ] at this
        refine ChunkInv_congr this ?_
        intro p _
        have harith : (ci + 1) * CHUNK_SIZE + p =
            CHUNK_SIZE + (ci * CHUNK_SIZE + p) := by ring
        rw [harith]
      obtain ⟨ihlen, ihget, ihbeyond⟩ := ih (fun q => g (CHUNK_SIZE + q)) hrest
      have hpadlen : (padChunk c).length = CHUNK_SIZE :=
        padChunk_length c h0'.len_le
      refine ⟨?_, ?_, ?_⟩
      · rw [renderChunks_two, renderLen_two, List.length_append, hpadlen, ihlen]
      · intro i hi
        rw [renderLen_two] at hi
        rw [renderChunks_two, List.getElem?_append, hpadlen]
        by_cases hCS : i < CHUNK_SIZE
        · rw [if_pos hCS, padChunk_getElem? c h0'.len_le]
          by_cases h1 : i < (c.getD emptyChunk).chunk.length
          · rw [if_pos h1]
            exact h0'.content i h1
          · rw [if_neg h1, if_pos hCS, h0'.beyond i (by omega) hCS]
            rfl
        · rw [if_neg hCS]
          have hg := ihget (i - CHUNK_SIZE) (by omega)
          rw [hg]
          have harith : CHUNK_SIZE + (i - CHUNK_SIZE) = i := by omega
          rw [harith]
      · intro i hi
        rw [renderLen_two] at hi
        have hb : g (CHUNK_SIZE + (i - CHUNK_SIZE)) = none :=
          ihbeyond (i - CHUNK_SIZE) (by omega)
        have harith : CHUNK_SIZE + (i - CHUNK_SIZE) = i := by omega
        exact harith ▸ hb

/-- `renderLen` of a store ending in a stored chunk. -/
theorem renderLen_last :
    ∀ (l : List (Option TaskOutputChunk)) (oc : Option TaskOutputChunk),
      l.getLast? = some oc →
      renderLen l = (l.length - 1) * CHUNK_SIZE + (oc.getD emptyChunk).chunk.length := by
  intro l
  induction l with
  | nil => intro oc h; simp at h
  | cons c rest ih =>
    intro oc h
    cases rest with
    | nil =>
      simp [List.getLast?] at h
      subst h
      simp [renderLen]
    | cons r rs =>
      rw [getLast?_cons_of_ne_nil c (r :: rs) (by simp)] at h
      rw [renderLen_two, ih oc h]
      have h1 : (r :: rs).length - 1 + 1 = (c :: r :: rs).length - 1 := by
        simp
      have h2 : ((r :: rs).length - 1 + 1) * CHUNK_SIZE =
          ((r :: rs).length - 1) * CHUNK_SIZE + CHUNK_SIZE := by ring
      rw [← h1, h2]
      omega

/-! ## `maxEnd` versus the ghost map -/

theorem maxEnd_cons (w : OutputWrite) (ws : List OutputWrite) :
    maxEnd (w :: ws) = max (writeEnd w) (maxEnd ws) := rfl

theorem writtenAt_lt_maxEnd :
    ∀ (ws : List OutputWrite) (i v : Nat), writtenAt ws i = some v → i < maxEnd ws := by
  intro ws
  induction ws with
  | nil => intro i v h; simp [writtenAt, List.findSome?_nil] at h
  | cons w ws ih =>
    intro i v h
    rw [writtenAt_cons] at h
    rw [maxEnd_cons]
    by_cases h1 : w.1 ≤ i
    · rw [if_pos h1] at h
      cases hl : w.2[i - w.1]? with
      | none =>
        rw [hl, Option.none_or] at h
        have := ih i v h
        omega
      | some u =>
        have := (List.getElem?_eq_some.1 hl).1
        unfold writeEnd
        omega
    · rw [if_neg h1, Option.none_or] at h
      have := ih i v h
      omega

theorem maxEnd_written :
    ∀ (ws : List OutputWrite), (∀ w ∈ ws, w.2 ≠ []) → 0 < maxEnd ws →
      ∃ v, writtenAt ws (maxEnd ws - 1) = some v := by
  intro ws
  induction ws with
  | nil => intro _ h; simp [maxEnd] at h
  | cons w ws ih =>
    intro hne h
    have hwlen : 0 < w.2.length :=
      List.length_pos.2 (hne w (List.mem_cons_self w ws))
    rw [maxEnd_cons] at h ⊢
    rw [writtenAt_cons]
    by_cases hcase : maxEnd ws ≤ writeEnd w
    · have hmax : max (writeEnd w) (maxEnd ws) = writeEnd w := by omega
      rw [hmax]
      unfold writeEnd at *
      rw [if_pos (by omega)]
      have hidx : w.1 + w.2.length - 1 - w.1 = w.2.length - 1 := by omega
      rw [hidx, List.getElem?_eq_getElem (by omega)]
      exact ⟨_, rfl⟩
    · have hmax : max (writeEnd w) (maxEnd ws) = maxEnd ws := by omega
      rw [hmax]
      obtain ⟨v, hv⟩ := ih (fun w' hw' => hne w' (List.mem_cons_of_mem w hw'))
        (by omega)
      rw [hv]
      cases hl : (if w.1 ≤ maxEnd ws - 1 then w.2[maxEnd ws - 1 - w.1]? else none) with
      | none => exact ⟨v, rfl⟩
      | some u => exact ⟨u, rfl⟩

theorem maxEnd_le (ws : List OutputWrite) (B : Nat)
    (h : ∀ w ∈ ws, writeEnd w ≤ B) : maxEnd ws ≤ B := by
  induction ws with
  | nil => simp [maxEnd]
  | cons w ws ih =>
    rw [maxEnd_cons]
    have h1 := h w (List.mem_cons_self w ws)
    have h2 := ih (fun w' hw' => h w' (List.mem_cons_of_mem w hw'))
    omega

/-- The first-match lookup agrees with each individual write on its span
(unambiguous thanks to disjointness). -/
theorem writtenAt_covers :
    ∀ (ws : List OutputWrite), DisjointWrites ws → ∀ w ∈ ws, ∀ j, j < w.2.length →
      writtenAt ws (w.1 + j) = w.2[j]? := by
  intro ws
  induction ws with
  | nil => intro _ w hw; simp at hw
  | cons w0 ws ih =>
    intro hdisj w hw j hj
    rw [writtenAt_cons]
    rcases List.mem_cons.1 hw with rfl | hw'
    · rw [if_pos (by omega)]
      have hidx : w.1 + j - w.1 = j := by omega
      rw [hidx, List.getElem?_eq_getElem hj]
      simp
    · have hne := (List.pairwise_cons.1 hdisj).1 w hw'
      have hlook : (if w0.1 ≤ w.1 + j then w0.2[w.1 + j - w0.1]? else none) = none := by
        by_cases h1 : w0.1 ≤ w.1 + j
        · rw [if_pos h1, List.getElem?_eq_none]
          unfold writeEnd at hne
          rcases hne with h | h <;> omega
        · rw [if_neg h1]
      rw [hlook, Option.none_or]
      exact ih (List.pairwise_cons.1 hdisj).2 w hw' j hj

/-- The store of a disjoint write list realizes the first-match lookup. -/
theorem applyWrites_writtenAt (ws : List OutputWrite) (hdisj : DisjointWrites ws)
    (hcap : ∀ w ∈ ws, writeEnd w ≤ PUT_MAX_CONTENT) :
    StoreAbs (applyWrites emptyStore ws) (writtenAt ws) := by
  have habs0 := applyWrites_abs ws emptyStore (fun _ => none) StoreAbs_empty hdisj
    hcap (by intro w _ i _ _; rfl)
  exact StoreAbs_congr habs0 (fun i => overrideAll_none ws i hdisj)

theorem FETCH_le_PUT : FETCH_MAX_CONTENT ≤ PUT_MAX_CONTENT := by
  norm_num [FETCH_MAX_CONTENT, PUT_MAX_CONTENT, PUT_MAX_CHUNKS, CHUNK_SIZE]

/-- **C5** (amended: the writes must fit under `FETCH_MAX_CONTENT`, the
read cap — claim C6 governs what happens past the caps).  Round trip of
`append_output`/`get_output`: applying any non-overlapping nonempty writes
in any order, the output has exactly the extent of the highest written
byte, reproduces every written span verbatim, reads `0` at every
never-written position below that extent, and each stored chunk's `gaps`
list contains exactly the never-written positions of the chunk; in
particular writing `"Foo"` at offset 10 then `"Bar"` at offset 0 yields
`"Bar" ++ "\x00"*7 ++ "Foo"` with `gaps = [3, 10]`. -/
theorem C5_round_trip :
    (∀ ws : List OutputWrite, DisjointWrites ws → (∀ w ∈ ws, w.2 ≠ []) →
      (∀ w ∈ ws, writeEnd w ≤ FETCH_MAX_CONTENT) →
      ((get_output (applyWrites emptyStore ws)).length = maxEnd ws ∧
       (∀ w ∈ ws, ∀ j, j < w.2.length →
         (get_output (applyWrites emptyStore ws))[w.1 + j]? = w.2[j]?) ∧
       (∀ i, i < maxEnd ws → writtenAt ws i = none →
         (get_output (applyWrites emptyStore ws))[i]? = some 0) ∧
       (∀ ci c, (applyWrites emptyStore ws).chunks[ci]? = some (some c) →
         ∀ p, p < c.chunk.length →
           (inGaps c.gaps p ↔ writtenAt ws (ci * CHUNK_SIZE + p) = none)))) ∧
    (get_output (applyWrites emptyStore [(10, [70, 111, 111]), (0, [66, 97, 114])]) =
        [66, 97, 114] ++ List.replicate 7 0 ++ [70, 111, 111] ∧
      (applyWrites emptyStore [(10, [70, 111, 111]), (0, [66, 97, 114])]).chunks =
        [some ⟨[66, 97, 114] ++ List.replicate 7 0 ++ [70, 111, 111], [(3, 10)]⟩]) := by
  refine ⟨?_, by decide, by decide⟩
  intro ws hdisj hne hcap
  have hcapP : ∀ w ∈ ws, writeEnd w ≤ PUT_MAX_CONTENT :=
    fun w hw => le_trans (hcap w hw) FETCH_le_PUT
  have habs := applyWrites_writtenAt ws hdisj hcapP
  have hchunks : ∀ ci,
      ChunkInv ((((applyWrites emptyStore ws).chunks[ci]?).getD none).getD emptyChunk)
        (fun p => writtenAt ws (ci * CHUNK_SIZE + p)) := by
    intro ci
    have := habs.chunks_inv ci
    rwa [sChunk_eq_getElem?] at this
  obtain ⟨hlen, hget, hbeyond⟩ :=
    render_spec (applyWrites emptyStore ws).chunks (writtenAt ws) hchunks
  have hmaxle : maxEnd ws ≤ FETCH_MAX_CONTENT := maxEnd_le ws _ hcap
  have hRL : renderLen (applyWrites emptyStore ws).chunks = maxEnd ws := by
    have hle1 : maxEnd ws ≤ renderLen (applyWrites emptyStore ws).chunks := by
      by_cases h0 : maxEnd ws = 0
      · omega
      · obtain ⟨v, hv⟩ := maxEnd_written ws hne (by omega)
        by_contra hcon
        push_neg at hcon
        have hb := hbeyond (maxEnd ws - 1) (by omega)
        rw [hv] at hb
        exact Option.noConfusion hb
    have hle2 : renderLen (applyWrites emptyStore ws).chunks ≤ maxEnd ws := by
      by_cases h0 : renderLen (applyWrites emptyStore ws).chunks = 0
      · omega
      · rcases habs.last_full with hnil | ⟨c, hc, hclen⟩
        · rw [hnil] at h0
          simp [renderLen] at h0
        · have hRLl : renderLen (applyWrites emptyStore ws).chunks =
              ((applyWrites emptyStore ws).chunks.length - 1) * CHUNK_SIZE +
                c.chunk.length := by
            simpa using renderLen_last (applyWrites emptyStore ws).chunks (some c) hc
          have hgl : (applyWrites emptyStore ws).chunks[
              (applyWrites emptyStore ws).chunks.length - 1]? = some (some c) := by
            rw [← List.getLast?_eq_getElem?]
            exact hc
          have hinv := hchunks ((applyWrites emptyStore ws).chunks.length - 1)
          rw [hgl] at hinv
          simp only [Option.getD_some] at hinv
          have hlw := hinv.last_written (c.chunk.length - 1) (by omega)
          cases hwv : writtenAt ws
              (((applyWrites emptyStore ws).chunks.length - 1) * CHUNK_SIZE +
                (c.chunk.length - 1)) with
          | none => exact absurd hwv hlw
          | some v =>
            have hlt := writtenAt_lt_maxEnd ws _ v hwv
            omega
    omega
  have hgetlen : (get_output (applyWrites emptyStore ws)).length = maxEnd ws := by
    rw [get_output, List.length_take, hlen, hRL]
    omega
  refine ⟨hgetlen, ?_, ?_, ?_⟩
  · intro w hw j hj
    have hcov := writtenAt_covers ws hdisj w hw j hj
    have hsome : writtenAt ws (w.1 + j) = some w.2[j] := by
      rw [hcov]
      exact List.getElem?_eq_getElem hj
    have hiw : w.1 + j < maxEnd ws := writtenAt_lt_maxEnd ws _ _ hsome
    rw [get_output, List.getElem?_take, if_pos (by omega), hget (w.1 + j) (by omega),
      hsome, List.getElem?_eq_getElem hj]
    rfl
  · intro i hi hnone
    rw [get_output, List.getElem?_take, if_pos (by omega), hget i (by omega), hnone]
    rfl
  · intro ci c hcc p hp
    have hinv := hchunks ci
    rw [hcc] at hinv
    exact hinv.gaps_iff p hp

/-- **C5, witness.**  The amended round trip applied to the pinned
two-write example. -/
theorem C5_round_trip_witness :
    (DisjointWrites [(10, [70, 111, 111]), (0, [66, 97, 114])] ∧
     (∀ w ∈ [((10 : Nat), [70, 111, 111]), (0, [66, 97, 114])], w.2 ≠ []) ∧
     (∀ w ∈ [((10 : Nat), [70, 111, 111]), (0, [66, 97, 114])],
       writeEnd w ≤ FETCH_MAX_CONTENT)) ∧
    ((get_output (applyWrites emptyStore [(10, [70, 111, 111]), (0, [66, 97, 114])])).length =
      maxEnd [(10, [70, 111, 111]), (0, [66, 97, 114])] ∧
     (∀ w ∈ [((10 : Nat), [70, 111, 111]), (0, [66, 97, 114])], ∀ j, j < w.2.length →
       (get_output (applyWrites emptyStore [(10, [70, 111, 111]), (0, [66, 97, 114])]))[w.1 + j]? =
         w.2[j]?) ∧
     (∀ i, i < maxEnd [(10, [70, 111, 111]), (0, [66, 97, 114])] →
       writtenAt [(10, [70, 111, 111]), (0, [66, 97, 114])] i = none →
       (get_output (applyWrites emptyStore [(10, [70, 111, 111]), (0, [66, 97, 114])]))[i]? =
         some 0) ∧
     (∀ ci c,
       (applyWrites emptyStore [(10, [70, 111, 111]), (0, [66, 97, 114])]).chunks[ci]? =
         some (some c) →
       ∀ p, p < c.chunk.length →
         (inGaps c.gaps p ↔
           writtenAt [(10, [70, 111, 111]), (0, [66, 97, 114])] (ci * CHUNK_SIZE + p) = none))) :=
  ⟨⟨by decide, by decide, by decide⟩,
   C5_round_trip.1 [(10, [70, 111, 111]), (0, [66, 97, 114])]
     (by decide) (by decide) (by decide)⟩

/-- **C5, counterexample.**  The round trip as claimed — for EVERY
sequence of non-overlapping writes — fails once a write lands at or past
`FETCH_MAX_CONTENT`: a one-byte write at offset `FETCH_MAX_CONTENT` is
accepted in full (nothing is dropped, the put cap is larger), so the span
is written, yet `get_output` returns at most `FETCH_MAX_CONTENT` bytes and
the written span is absent from the output. -/
theorem C5_counterexample :
    (append_output emptyStore FETCH_MAX_CONTENT [70]).2 = 0 ∧
    writtenAt [(FETCH_MAX_CONTENT, [70])] FETCH_MAX_CONTENT = some 70 ∧
    (get_output
      (applyWrites emptyStore [(FETCH_MAX_CONTENT, [70])]))[FETCH_MAX_CONTENT]? =
      none := by
  refine ⟨by decide, by decide, ?_⟩
  rw [get_output, List.getElem?_eq_none]
  rw [List.length_take]
  omega

/-! ## Size caps (claim C6) -/

/-- The store never exceeds the configured caps: at most `PUT_MAX_CHUNKS`
slots, each chunk at most `CHUNK_SIZE` bytes. -/
def StoreWf (s : OutputStore) : Prop :=
  s.chunks.length ≤ PUT_MAX_CHUNKS ∧
  ∀ ci, (sChunk s ci).chunk.length ≤ CHUNK_SIZE

theorem emptyStore_wf : StoreWf emptyStore := by
  constructor
  · norm_num [emptyStore, PUT_MAX_CHUNKS]
  · intro ci
    simp [sChunk, emptyStore, emptyChunk]

theorem writeAt_wf (s : OutputStore) (ci o : Nat) (d : List Nat) (h : StoreWf s)
    (hci : ci < PUT_MAX_CHUNKS) (hcap : o + d.length ≤ CHUNK_SIZE) :
    StoreWf (writeAt s ci o d) := by
  constructor
  · show (setChunk s.chunks ci _).length ≤ _
    rw [length_setChunk]
    have := h.1
    omega
  · intro cj
    by_cases hcj : cj = ci
    · subst hcj
      rw [sChunk_writeAt_self, chunkWrite_length]
      have := h.2 cj
      omega
    · rw [sChunk_writeAt_ne _ _ _ _ _ hcj]
      exact h.2 cj

theorem appendOutputAux_wf :
    ∀ (fuel : Nat) (s : OutputStore) (offset : Nat) (d : List Nat), StoreWf s →
      offset + d.length ≤ PUT_MAX_CONTENT →
      StoreWf (appendOutputAux fuel s offset d) := by
  intro fuel
  induction fuel with
  | zero => intro s offset d h _; exact h
  | succ fuel ih =>
    intro s offset d h hcap
    by_cases hnil : d = []
    · rw [appendOutputAux_succ, if_pos hnil]
      exact h
    · rw [appendOutputAux_succ, if_neg hnil]
      have hdl : 0 < d.length := List.length_pos.2 hnil
      have hco : offset % CHUNK_SIZE < CHUNK_SIZE := Nat.mod_lt offset CHUNK_SIZE_pos
      have hPMC : PUT_MAX_CONTENT = PUT_MAX_CHUNKS * CHUNK_SIZE := rfl
      have hoffP : offset < PUT_MAX_CHUNKS * CHUNK_SIZE := by omega
      have hci : offset / CHUNK_SIZE < PUT_MAX_CHUNKS :=
        (Nat.div_lt_iff_lt_mul CHUNK_SIZE_pos).2 hoffP
      apply ih
      · apply writeAt_wf _ _ _ _ h hci
        rw [List.length_take]
        omega
      · rw [List.length_drop]
        omega

theorem append_output_wf (s : OutputStore) (offset : Nat) (d : List Nat)
    (h : StoreWf s) : StoreWf ((append_output s offset d).1) := by
  show StoreWf (appendOutputAux (d.length + 1) s offset
    (d.take (min d.length (PUT_MAX_CONTENT - offset))))
  by_cases hoff : offset ≤ PUT_MAX_CONTENT
  · apply appendOutputAux_wf _ _ _ _ h
    rw [List.length_take]
    omega
  · have hk : min d.length (PUT_MAX_CONTENT - offset) = 0 := by omega
    rw [hk, List.take_zero, appendOutputAux_succ, if_pos rfl]
    exact h

theorem applyWrites_wf :
    ∀ (ws : List OutputWrite) (s : OutputStore), StoreWf s →
      StoreWf (applyWrites s ws) := by
  intro ws
  induction ws with
  | nil => intro s h; exact h
  | cons w ws ih =>
    intro s h
    rw [applyWrites_cons]
    exact ih _ (append_output_wf s w.1 w.2 h)

theorem renderChunks_length_le :
    ∀ (l : List (Option TaskOutputChunk)),
      (∀ ci : Nat, (((l[ci]?).getD none).getD emptyChunk).chunk.length ≤ CHUNK_SIZE) →
      (renderChunks l).length ≤ l.length * CHUNK_SIZE := by
  intro l
  induction l with
  | nil => intro _; simp [renderChunks]
  | cons c rest ih =>
    intro h
    cases rest with
    | nil =>
      have h0 := h 0
      rw [List.getElem?_cons_zero] at h0
      show (c.getD emptyChunk).chunk.length ≤ 1 * CHUNK_SIZE
      simpa using h0
    | cons r rs =>
      have h0 := h 0
      rw [List.getElem?_cons_zero] at h0
      have hrest := ih (fun ci => by
        have := h (ci + 1)
        rwa [List.getElem?_cons_succ] at this)
      rw [renderChunks_two, List.length_append, padChunk_length c h0]
      have harith : (c :: r :: rs).length * CHUNK_SIZE =
          CHUNK_SIZE + (r :: rs).length * CHUNK_SIZE := by
        simp [List.length_cons]
        ring
      rw [harith]
      omega

/-- **C6.**  `append_output` never fails on account of size: per command
the store never holds more than `PUT_MAX_CHUNKS` chunks nor renders more
than `PUT_MAX_CONTENT = PUT_MAX_CHUNKS × CHUNK_SIZE` bytes; an oversized
write drops exactly its trailing out-of-cap bytes (a positive returned
dropped-byte count — the logged warning — exactly when the write would
exceed the cap) and stores the in-cap prefix verbatim; and `get_output`
returns at most `FETCH_MAX_CONTENT` bytes. -/
theorem C6_output_caps :
    PUT_MAX_CONTENT = PUT_MAX_CHUNKS * CHUNK_SIZE ∧
    (∀ ws : List OutputWrite,
      (applyWrites emptyStore ws).chunks.length ≤ PUT_MAX_CHUNKS ∧
      (renderChunks (applyWrites emptyStore ws).chunks).length ≤ PUT_MAX_CONTENT) ∧
    (∀ (s : OutputStore) (offset : Nat) (d : List Nat), d ≠ [] →
      ((append_output s offset d).2 = 0 ↔ offset + d.length ≤ PUT_MAX_CONTENT)) ∧
    (∀ (s : OutputStore) (f : Nat → Option Nat) (offset : Nat) (d : List Nat),
      StoreAbs s f → offset ≤ PUT_MAX_CONTENT →
      (∀ i, offset ≤ i → i < offset + (d.take (PUT_MAX_CONTENT - offset)).length →
        f i = none) →
      StoreAbs ((append_output s offset d).1)
        (override f offset (d.take (PUT_MAX_CONTENT - offset)))) ∧
    (∀ s : OutputStore, (get_output s).length ≤ FETCH_MAX_CONTENT) := by
  refine ⟨rfl, ?_, ?_, ?_, ?_⟩
  · intro ws
    have hwf := applyWrites_wf ws emptyStore emptyStore_wf
    refine ⟨hwf.1, ?_⟩
    have hb := renderChunks_length_le (applyWrites emptyStore ws).chunks
      (fun ci => by
        have := hwf.2 ci
        rwa [sChunk_eq_getElem?] at this)
    calc (renderChunks (applyWrites emptyStore ws).chunks).length
        ≤ (applyWrites emptyStore ws).chunks.length * CHUNK_SIZE := hb
      _ ≤ PUT_MAX_CHUNKS * CHUNK_SIZE := Nat.mul_le_mul_right _ hwf.1
      _ = PUT_MAX_CONTENT := rfl
  · intro s offset d hd
    have hdl : 0 < d.length := List.length_pos.2 hd
    show d.length - min d.length (PUT_MAX_CONTENT - offset) = 0 ↔ _
    omega
  · intro s f offset d habs hoff hfresh
    have htake : d.take (PUT_MAX_CONTENT - offset) =
        d.take (min d.length (PUT_MAX_CONTENT - offset)) := by
      rw [List.take_eq_take]
      omega
    rw [htake] at hfresh ⊢
    show StoreAbs (appendOutputAux (d.length + 1) s offset
      (d.take (min d.length (PUT_MAX_CONTENT - offset)))) _
    apply appendOutputAux_abs _ _ _ _ _ habs _ hfresh
    rw [List.length_take]
    omega
  · intro s
    rw [get_output, List.length_take]
    omega

/-- **C6, witness.**  The cap behaviour applied to a concrete in-cap write
and to the empty store. -/
theorem C6_output_caps_witness :
    (([65] : List Nat) ≠ [] ∧
      ((append_output emptyStore 0 [65]).2 = 0 ↔
        0 + ([65] : List Nat).length ≤ PUT_MAX_CONTENT)) ∧
    StoreAbs ((append_output emptyStore 0 [65]).1)
      (override (fun _ => none) 0 (([65] : List Nat).take (PUT_MAX_CONTENT - 0))) :=
  ⟨⟨by decide, C6_output_caps.2.2.1 emptyStore 0 [65] (by decide)⟩,
   C6_output_caps.2.2.2.1 emptyStore (fun _ => none) 0 [65] StoreAbs_empty
     (Nat.zero_le _) (fun _ _ _ => rfl)⟩

/-! # Task lifecycle (`task_result` entities, `task_scheduler` operations)

`task_result.py` and `task_scheduler.py` are not under `src/`; the entity
records and the scheduler operations are modelled from the specification
(§3 data model, §4.4 ResultTracker, §4.5 Scheduler), following
`task_scheduler_test.py`/`task_result_test.py` wherever they pin concrete
behaviour.  Timestamps are integer seconds, costs and durations rationals. -/

/-- Task states (`task_result.State`). -/
inductive TState where
  | PENDING
  | RUNNING
  | COMPLETED
  | TIMED_OUT
  | BOT_DIED
  | CANCELED
  | EXPIRED
deriving DecidableEq

/-- Modelled from the spec: `task_result.BOT_PING_TOLERANCE`, the seconds
without a bot ping before the liveness sweep acts.  The spec does not fix
the value; any positive constant below the test's 600 s expiration fits the
pinned scenarios. -/
def BOT_PING_TOLERANCE : Int := 300

/-- The version string of the running server
(`default-version` in the tests). -/
def server_version : String := "default-version"

/-- An immutable `TaskRequest` (the fields the scheduler claims touch). -/
structure TaskRequestRec where
  key : RequestKey
  name : String
  user : String
  priority : Nat
  created_ts : Int
  expiration_ts : Int
  properties_hash : Option String
deriving DecidableEq

/-- A per-attempt `TaskRunResult`. -/
structure RunResultRec where
  try_number : Nat
  state : TState
  bot_id : String
  bot_version : String
  failure : Bool
  internal_failure : Bool
  started_ts : Int
  completed_ts : Option Int
  abandoned_ts : Option Int
  modified_ts : Int
  cost_usd : Rat
  exit_codes : List Int
  durations : List Rat
  server_versions : List String
deriving DecidableEq

/-- The singleton per-request `TaskResultSummary`. -/
structure ResultSummaryRec where
  request_key : RequestKey
  name : String
  user : String
  created_ts : Int
  modified_ts : Int
  started_ts : Option Int
  completed_ts : Option Int
  abandoned_ts : Option Int
  state : TState
  try_number : Option Nat
  failure : Bool
  internal_failure : Bool
  bot_id : Option String
  bot_version : Option String
  exit_codes : List Int
  durations : List Rat
  costs_usd : List Rat
  cost_saved_usd : Option Rat
  deduped_from : Option String
  properties_hash : Option String
  server_versions : List String
deriving DecidableEq

/-- The `TaskToRun` row of a request. -/
structure TaskToRunRec where
  queue_number : Option Nat
  expiration_ts : Int
deriving DecidableEq

/-- All mutable entities of one request. -/
structure TaskEntities where
  request : TaskRequestRec
  summary : ResultSummaryRec
  to_run : Option TaskToRunRec
  run_results : List RunResultRec
deriving DecidableEq

/-- Modelled from the spec: `task_result.new_result_summary` — a PENDING
summary, `properties_hash` carried over from the request (the request
carries one iff it is idempotent). -/
def new_result_summary (r : TaskRequestRec) (now : Int) : ResultSummaryRec where
  request_key := r.key
  name := r.name
  user := r.user
  created_ts := r.created_ts
  modified_ts := now
  started_ts := none
  completed_ts := none
  abandoned_ts := none
  state := .PENDING
  try_number := none
  failure := false
  internal_failure := false
  bot_id := none
  bot_version := none
  exit_codes := []
  durations := []
  costs_usd := []
  cost_saved_usd := none
  deduped_from := none
  properties_hash := r.properties_hash
  server_versions := []

/-- Modelled from the spec: the `TaskToRun.queue_number` encoding — a
composite integer whose primary sort key is the priority and secondary key
the creation time; the exact bit layout is irrelevant to every claim. -/
def encodeQueueNumber (r : TaskRequestRec) : Nat :=
  r.priority * 2 ^ 47 + r.created_ts.toNat

/-- Modelled from the spec: `task_result.new_run_result` — a RUNNING
attempt started now by the given bot. -/
def new_run_result (_r : TaskRequestRec) (try_number : Nat)
    (bot_id bot_version : String) (now : Int) : RunResultRec where
  try_number := try_number
  state := .RUNNING
  bot_id := bot_id
  bot_version := bot_version
  failure := false
  internal_failure := false
  started_ts := now
  completed_ts := none
  abandoned_ts := none
  modified_ts := now
  cost_usd := 0
  exit_codes := []
  durations := []
  server_versions := [server_version]

/-- Union of server version lists (the spec keeps them deduplicated; the
ordering is irrelevant to every claim). -/
def mergeVersions (a b : List String) : List String :=
  a ++ b.filter (fun v => !a.contains v)

/-- Modelled from the spec: `TaskResultSummary.set_from_run_result` —
project the attempt onto the summary, preserving `created_ts`, storing the
attempt cost in the attempt's slot of `costs_usd`, unioning
`server_versions` and never decreasing `try_number`. -/
def set_from_run_result (s : ResultSummaryRec) (rr : RunResultRec)
    (now : Int) : ResultSummaryRec :=
  { s with
    state := rr.state
    try_number := some (max (s.try_number.getD 0) rr.try_number)
    failure := rr.failure
    internal_failure := rr.internal_failure
    bot_id := some rr.bot_id
    bot_version := some rr.bot_version
    started_ts := some rr.started_ts
    completed_ts := rr.completed_ts
    abandoned_ts := rr.abandoned_ts
    exit_codes := rr.exit_codes
    durations := rr.durations
    costs_usd := s.costs_usd.take (rr.try_number - 1) ++ [rr.cost_usd]
    server_versions := mergeVersions s.server_versions rr.server_versions
    modified_ts := now }

/-- Modelled from the spec: the liveness criterion of
`task_result.yield_run_result_keys_with_dead_bot`.  The spec words it as
`modified_ts + BOT_PING_TOLERANCE ≤ now`, but
`task_result_test.py` (`test_yield_run_result_keys_with_dead_bot`) pins
that a run modified exactly `BOT_PING_TOLERANCE` ago is NOT selected, so
the bound is strict. -/
def dead_bot (rr : RunResultRec) (now : Int) : Bool :=
  rr.state == TState.RUNNING && decide (rr.modified_ts + BOT_PING_TOLERANCE < now)

/-- Modelled from the spec: `task_result.yield_run_result_keys_with_dead_bot`
— the RUNNING attempts whose bot missed its ping window. -/
def yield_run_result_keys_with_dead_bot (rs : List RunResultRec) (now : Int) :
    List RunResultRec :=
  rs.filter (fun rr => dead_bot rr now)

/-- Modelled from the spec: the dedup query filter of
`task_scheduler.schedule_request` — same `properties_hash`, COMPLETED
without failure, and recent enough.  The spec words the recency filter as
`created_ts ≥ now − reusable_task_age_secs`, but `task_scheduler_test.py`
(`test_task_idempotent_old`) pins that a source exactly
`reusable_task_age_secs` old is NOT reused, so the bound is strict. -/
def dedup_match (s : ResultSummaryRec) (h : String) (now age : Int) : Bool :=
  s.properties_hash == some h && s.state == TState.COMPLETED &&
    s.failure == false && decide (now - age < s.created_ts)

/-- The first match of the dedup query; the pool is ordered by `created_ts`
descending as the spec's query demands. -/
def find_dedup (pool : List ResultSummaryRec) (h : String) (now age : Int) :
    Option ResultSummaryRec :=
  pool.find? (fun s => dedup_match s h now age)

/-- The fresh-scheduling path: a PENDING summary and an armed TaskToRun. -/
def schedule_fresh (r : TaskRequestRec) (now : Int) : TaskEntities where
  request := r
  summary := new_result_summary r now
  to_run := some ⟨some (encodeQueueNumber r), r.expiration_ts⟩
  run_results := []

/-- The dedup summary derived from a source summary (spec §4.5 step 2). -/
def dedup_summary (r : TaskRequestRec) (src : ResultSummaryRec)
    (now : Int) : ResultSummaryRec :=
  { new_result_summary r now with
    state := .COMPLETED
    try_number := some 0
    failure := false
    exit_codes := src.exit_codes
    durations := src.durations
    server_versions := src.server_versions
    bot_id := src.bot_id
    bot_version := src.bot_version
    started_ts := src.started_ts
    completed_ts := src.completed_ts
    cost_saved_usd := src.costs_usd.getLast?
    deduped_from :=
      some (pack_run_result_key src.request_key (src.try_number.getD 1))
    properties_hash := none
    costs_usd := [] }

/-- Modelled from the spec: `task_scheduler.schedule_request` — for an
idempotent request first look for a reusable COMPLETED summary; on a hit
derive the summary from it and create no TaskToRun, otherwise store a
PENDING summary and arm a TaskToRun. -/
def schedule_request (pool : List ResultSummaryRec) (r : TaskRequestRec)
    (now age : Int) : TaskEntities :=
  match r.properties_hash with
  | some h =>
    match find_dedup pool h now age with
    | some src =>
      { request := r, summary := dedup_summary r src now,
        to_run := none, run_results := [] }
    | none => schedule_fresh r now
  | none => schedule_fresh r now

/-- A bot that owned a now-dead attempt of this request may not retry it. -/
def bot_denied (e : TaskEntities) (bot_id : String) : Bool :=
  e.run_results.any fun rr =>
    rr.state == TState.BOT_DIED && rr.bot_id == bot_id

/-- Modelled from the spec: `task_scheduler.bot_reap_task` restricted to
one request — claim the TaskToRun, create the next attempt
(`try_number := summary.try_number + 1`, 1 for a fresh task) and project it
onto the summary; a bot whose earlier attempt died is denied. -/
def bot_reap_task (e : TaskEntities) (bot_id bot_version : String)
    (now : Int) : Option RunResultRec × TaskEntities :=
  match e.to_run with
  | none => (none, e)
  | some t =>
    if t.queue_number.isSome && !bot_denied e bot_id then
      let rr := new_run_result e.request (e.summary.try_number.getD 0 + 1)
        bot_id bot_version now
      (some rr,
        { e with
          to_run := some { t with queue_number := none }
          run_results := e.run_results ++ [rr]
          summary := set_from_run_result e.summary rr now })
    else (none, e)

/-- Modelled from the spec: `task_scheduler.cron_handle_bot_died`
restricted to one request — when the current (last) attempt is RUNNING and
its bot missed the ping window, mark the attempt BOT_DIED with
`internal_failure`; if it was try 1 and the request is not yet expired,
re-arm a TaskToRun and return the summary to PENDING (keeping its
`try_number` so the next reap allocates try 2), otherwise the summary
becomes terminal BOT_DIED. -/
def cron_handle_bot_died (e : TaskEntities) (now : Int) : TaskEntities :=
  match e.run_results.getLast? with
  | none => e
  | some rr =>
    if dead_bot rr now then
      let rrd := { rr with
        state := .BOT_DIED, internal_failure := true,
        abandoned_ts := some now, modified_ts := now }
      if rr.try_number < 2 && decide (now < e.request.expiration_ts) then
        { e with
          run_results := e.run_results.dropLast ++ [rrd]
          summary := { e.summary with
            state := .PENDING, started_ts := none, modified_ts := now }
          to_run := some ⟨some (encodeQueueNumber e.request),
            e.request.expiration_ts⟩ }
      else
        { e with
          run_results := e.run_results.dropLast ++ [rrd]
          summary := set_from_run_result e.summary rrd now }
    else e

/-- Modelled from the spec: `task_scheduler.cron_abort_expired_task_to_run`
restricted to one request — clear the expired TaskToRun; a request with no
attempt becomes EXPIRED, while one whose attempt died awaiting a retry
keeps BOT_DIED (the summary is patched from the dead attempt), as pinned by
`test_cron_abort_expired_task_to_run_retry`. -/
def cron_abort_expired_task_to_run (e : TaskEntities) (now : Int) : TaskEntities :=
  match e.to_run with
  | none => e
  | some t =>
    if t.queue_number.isSome && decide (t.expiration_ts ≤ now) then
      match e.run_results.getLast? with
      | some rr =>
        { e with
          to_run := some { t with queue_number := none }
          summary := { set_from_run_result e.summary rr now with
            state := .BOT_DIED, abandoned_ts := some now } }
      | none =>
        { e with
          to_run := some { t with queue_number := none }
          summary := { e.summary with
            state := .EXPIRED, abandoned_ts := some now, modified_ts := now } }
    else e

/-- Modelled from the spec: `task_scheduler.cancel_task` — allowed only
while PENDING: clear the TaskToRun's `queue_number` and set CANCELED,
returning `(ok, was_running)`; otherwise change nothing. -/
def cancel_task (e : TaskEntities) (now : Int) : (Bool × Bool) × TaskEntities :=
  if e.summary.state == TState.PENDING then
    ((true, false),
      { e with
        summary := { e.summary with
          state := .CANCELED, abandoned_ts := some now, modified_ts := now }
        to_run := e.to_run.map fun t => { t with queue_number := none } })
  else
    ((false, e.summary.state == TState.RUNNING), e)

/-! ## Claim C4: the bot-liveness sweep -/

/-- **C4, counterexample.**  A RUNNING attempt whose last modification lies
exactly `BOT_PING_TOLERANCE` in the past is NOT selected by
`yield_run_result_keys_with_dead_bot`, contradicting the claim (pinned by
`test_yield_run_result_keys_with_dead_bot`, which expects `[]` at exactly
the tolerance and a selection only one second later). -/
theorem C4_counterexample :
    (⟨1, .RUNNING, "localhost", "abc", false, false, 0, none, none, 0, 0, [], [],
        ["default-version"]⟩ : RunResultRec).modified_ts + BOT_PING_TOLERANCE ≤
      0 + BOT_PING_TOLERANCE ∧
    yield_run_result_keys_with_dead_bot
      [⟨1, .RUNNING, "localhost", "abc", false, false, 0, none, none, 0, 0, [], [],
        ["default-version"]⟩] (0 + BOT_PING_TOLERANCE) = [] ∧
    yield_run_result_keys_with_dead_bot
      [⟨1, .RUNNING, "localhost", "abc", false, false, 0, none, none, 0, 0, [], [],
        ["default-version"]⟩] (0 + BOT_PING_TOLERANCE + 1) =
      [⟨1, .RUNNING, "localhost", "abc", false, false, 0, none, none, 0, 0, [], [],
        ["default-version"]⟩] :=
  ⟨by decide, by decide, by decide⟩

/-- **C4, amended.**  The sweep selects exactly the RUNNING attempts with
`modified_ts + BOT_PING_TOLERANCE < now` (strict): one modified exactly
`BOT_PING_TOLERANCE` ago is not yet selected. -/
theorem C4_dead_bot_selection (rs : List RunResultRec) (now : Int)
    (rr : RunResultRec) :
    rr ∈ yield_run_result_keys_with_dead_bot rs now ↔
      (rr ∈ rs ∧ rr.state = TState.RUNNING ∧
        rr.modified_ts + BOT_PING_TOLERANCE < now) := by
  rw [yield_run_result_keys_with_dead_bot, List.mem_filter]
  simp [dead_bot, and_assoc]

/-! ## Claim C3: the dedup recency window -/

/-- A COMPLETED, successful, idempotent source summary used as a concrete
dedup source. -/
def sample_source : ResultSummaryRec :=
  { new_result_summary ⟨.new 0xde, "y", "R", 50, 0, 600, some "h"⟩ 0 with
    state := .COMPLETED
    try_number := some 1
    costs_usd := [1]
    exit_codes := [0]
    durations := [1]
    bot_id := some "localhost"
    bot_version := some "abc"
    started_ts := some 0
    completed_ts := some 5
    server_versions := ["default-version"] }

/-- An idempotent request with the same properties hash, submitted exactly
`reusable_task_age_secs` (3600) after the source. -/
def boundary_request : TaskRequestRec :=
  ⟨.new 0xce, "yay", "Raoul", 50, 3600, 3660, some "h"⟩

/-- **C3, counterexample.**  A source whose `created_ts` equals exactly
`now − reusable_task_age_secs` is NOT reused: the request is scheduled
fresh with a TaskToRun, contradicting the claim (pinned by
`test_task_idempotent_old`, which expects the second task to be enqueued
when submitted exactly `reusable_task_age_secs` later). -/
theorem C3_counterexample :
    sample_source.created_ts = 3600 - 3600 ∧
    sample_source.properties_hash = boundary_request.properties_hash ∧
    sample_source.state = TState.COMPLETED ∧
    sample_source.failure = false ∧
    (schedule_request [sample_source] boundary_request 3600 3600).to_run.isSome =
      true ∧
    (schedule_request [sample_source] boundary_request 3600 3600).summary.deduped_from =
      none :=
  ⟨by decide, by decide, by decide, by decide, by decide, by decide⟩

/-- **C3, amended.**  Against a single matching candidate, an idempotent
request is deduplicated exactly when `created_ts > now −
reusable_task_age_secs` (strict); a source at or beyond the cut-off causes
a fresh TaskToRun to be enqueued instead. -/
theorem C3_dedup_window (src : ResultSummaryRec) (r : TaskRequestRec)
    (h : String) (now age : Int) (hr : r.properties_hash = some h)
    (hsrc : src.properties_hash = some h) (hst : src.state = TState.COMPLETED)
    (hf : src.failure = false) :
    (((schedule_request [src] r now age).summary.deduped_from.isSome = true ∧
        (schedule_request [src] r now age).to_run = none) ↔
      now - age < src.created_ts) ∧
    (src.created_ts ≤ now - age →
      (schedule_request [src] r now age).to_run.isSome = true ∧
      (schedule_request [src] r now age).summary.deduped_from = none) := by
  by_cases hrec : now - age < src.created_ts
  · constructor
    · constructor
      · intro _
        exact hrec
      · intro _
        simp [schedule_request, hr, find_dedup, List.find?, dedup_match, hsrc,
          hst, hf, hrec, dedup_summary]
    · intro hle
      omega
  · constructor
    · simp only [iff_iff_implies_and_implies]
      constructor
      · intro hded
        have : (schedule_request [src] r now age).to_run.isSome = true := by
          simp [schedule_request, hr, find_dedup, List.find?, dedup_match, hsrc,
            hst, hf, hrec, schedule_fresh]
        rw [hded.2] at this
        simp at this
      · intro hlt
        exact absurd hlt hrec
    · intro _
      simp [schedule_request, hr, find_dedup, List.find?, dedup_match, hsrc, hst,
        hf, hrec, schedule_fresh, new_result_summary]

/-- **C3, witness.**  The amended window applied to a source one second
inside the window. -/
theorem C3_dedup_window_witness :
    (sample_source.properties_hash = some "h" ∧
      sample_source.state = TState.COMPLETED ∧ sample_source.failure = false) ∧
    ((((schedule_request [sample_source]
          ⟨.new 0xce, "yay", "Raoul", 50, 3599, 3659, some "h"⟩ 3599
          3600).summary.deduped_from.isSome = true ∧
        (schedule_request [sample_source]
          ⟨.new 0xce, "yay", "Raoul", 50, 3599, 3659, some "h"⟩ 3599
          3600).to_run = none) ↔
      (3599 : Int) - 3600 < sample_source.created_ts) ∧
    (sample_source.created_ts ≤ (3599 : Int) - 3600 →
      (schedule_request [sample_source]
        ⟨.new 0xce, "yay", "Raoul", 50, 3599, 3659, some "h"⟩ 3599
        3600).to_run.isSome = true ∧
      (schedule_request [sample_source]
        ⟨.new 0xce, "yay", "Raoul", 50, 3599, 3659, some "h"⟩ 3599
        3600).summary.deduped_from = none)) :=
  ⟨⟨by decide, by decide, by decide⟩,
   C3_dedup_window sample_source
     ⟨.new 0xce, "yay", "Raoul", 50, 3599, 3659, some "h"⟩ "h" 3599 3600
     (by decide) (by decide) (by decide) (by decide)⟩

/-! ## Claim C7: cancellation -/

/-- **C7.**  `cancel_task` succeeds only while PENDING: it returns
`(true, false)`, clears the TaskToRun's `queue_number` and sets CANCELED;
on a RUNNING task it returns `(false, true)` and leaves every entity
unchanged. -/
theorem C7_cancel_task (e : TaskEntities) (now : Int) :
    (e.summary.state = TState.PENDING →
      (cancel_task e now).1 = (true, false) ∧
      (cancel_task e now).2.summary.state = TState.CANCELED ∧
      (cancel_task e now).2.to_run.map TaskToRunRec.queue_number =
        e.to_run.map (fun _ => none)) ∧
    (e.summary.state = TState.RUNNING →
      (cancel_task e now).1 = (false, true) ∧
      (cancel_task e now).2 = e) := by
  constructor
  · intro hp
    refine ⟨by simp [cancel_task, hp], by simp [cancel_task, hp], ?_⟩
    cases htr : e.to_run <;> simp [cancel_task, hp, htr]
  · intro hr
    have hne : (e.summary.state == TState.PENDING) = false := by
      simp [hr]
    refine ⟨?_, ?_⟩ <;> simp [cancel_task, hne, hr]

/-- **C7, witness.**  `cancel_task` on a freshly scheduled (PENDING) task
and on the same task after a bot reaped it (RUNNING). -/
theorem C7_cancel_task_witness :
    ((schedule_fresh ⟨.new 0, "n", "u", 50, 0, 600, none⟩ 0).summary.state =
        TState.PENDING ∧
      (cancel_task (schedule_fresh ⟨.new 0, "n", "u", 50, 0, 600, none⟩ 0) 5).1 =
        (true, false) ∧
      (cancel_task (schedule_fresh ⟨.new 0, "n", "u", 50, 0, 600, none⟩ 0)
          5).2.summary.state = TState.CANCELED) ∧
    ((bot_reap_task (schedule_fresh ⟨.new 0, "n", "u", 50, 0, 600, none⟩ 0)
          "b" "v" 0).2.summary.state = TState.RUNNING ∧
      (cancel_task (bot_reap_task
          (schedule_fresh ⟨.new 0, "n", "u", 50, 0, 600, none⟩ 0) "b" "v" 0).2
          5).1 = (false, true) ∧
      (cancel_task (bot_reap_task
          (schedule_fresh ⟨.new 0, "n", "u", 50, 0, 600, none⟩ 0) "b" "v" 0).2
          5).2 = (bot_reap_task
          (schedule_fresh ⟨.new 0, "n", "u", 50, 0, 600, none⟩ 0) "b" "v" 0).2) :=
  ⟨⟨by decide,
    (C7_cancel_task (schedule_fresh ⟨.new 0, "n", "u", 50, 0, 600, none⟩ 0) 5).1
      (by decide) |>.1,
    (C7_cancel_task (schedule_fresh ⟨.new 0, "n", "u", 50, 0, 600, none⟩ 0) 5).1
      (by decide) |>.2.1⟩,
   ⟨by decide,
    (C7_cancel_task (bot_reap_task
        (schedule_fresh ⟨.new 0, "n", "u", 50, 0, 600, none⟩ 0) "b" "v" 0).2 5).2
      (by decide) |>.1,
    (C7_cancel_task (bot_reap_task
        (schedule_fresh ⟨.new 0, "n", "u", 50, 0, 600, none⟩ 0) "b" "v" 0).2 5).2
      (by decide) |>.2⟩⟩

/-! ## Claim C1: fields of a deduplicated summary -/

/-- **C1.**  When an idempotent request is scheduled while some pooled
summary matches the dedup filter, `schedule_request` dedups against the
first match: the new summary is COMPLETED at `try_number 0` without
failure, `deduped_from` is the packed run id of the source's terminal
attempt, `cost_saved_usd` is the source's last attempt cost, `costs_usd`
is empty, `properties_hash` is cleared, and no TaskToRun or RunResult is
created. -/
theorem C1_dedup_copies_fields (pool : List ResultSummaryRec)
    (r : TaskRequestRec) (h : String) (now age : Int)
    (hr : r.properties_hash = some h)
    (hex : ∃ s ∈ pool, dedup_match s h now age = true) :
    ∃ src, find_dedup pool h now age = some src ∧
      dedup_match src h now age = true ∧
      (schedule_request pool r now age).summary.state = TState.COMPLETED ∧
      (schedule_request pool r now age).summary.try_number = some 0 ∧
      (schedule_request pool r now age).summary.failure = false ∧
      (schedule_request pool r now age).summary.deduped_from =
        some (pack_run_result_key src.request_key (src.try_number.getD 1)) ∧
      (schedule_request pool r now age).summary.cost_saved_usd =
        src.costs_usd.getLast? ∧
      (schedule_request pool r now age).summary.costs_usd = [] ∧
      (schedule_request pool r now age).summary.properties_hash = none ∧
      (schedule_request pool r now age).to_run = none ∧
      (schedule_request pool r now age).run_results = [] := by
  have hfind : (find_dedup pool h now age).isSome = true := by
    rw [find_dedup, List.find?_isSome]
    obtain ⟨s0, hs0, hm0⟩ := hex
    exact ⟨s0, hs0, hm0⟩
  obtain ⟨src, hsrc⟩ := Option.isSome_iff_exists.mp hfind
  have hsrc2 := hsrc
  rw [find_dedup] at hsrc2
  have hm := List.find?_some hsrc2
  have hsch : schedule_request pool r now age =
      ⟨r, dedup_summary r src now, none, []⟩ := by
    simp [schedule_request, hr, hsrc]
  refine ⟨src, hsrc, hm, ?_, ?_, ?_, ?_, ?_, ?_, ?_, ?_, ?_⟩ <;>
    rw [hsch] <;> rfl

/-- **C1, witness.**  The dedup fields at a concrete pool and request. -/
theorem C1_dedup_copies_fields_witness :
    (⟨.new 0xce, "yay", "Raoul", 50, 3599, 3659, some "h"⟩ :
        TaskRequestRec).properties_hash = some "h" ∧
    (∃ s ∈ [sample_source], dedup_match s "h" 3599 3600 = true) ∧
    (∃ src, find_dedup [sample_source] "h" 3599 3600 = some src ∧
      dedup_match src "h" 3599 3600 = true ∧
      (schedule_request [sample_source]
        ⟨.new 0xce, "yay", "Raoul", 50, 3599, 3659, some "h"⟩ 3599
        3600).summary.state = TState.COMPLETED ∧
      (schedule_request [sample_source]
        ⟨.new 0xce, "yay", "Raoul", 50, 3599, 3659, some "h"⟩ 3599
        3600).summary.try_number = some 0 ∧
      (schedule_request [sample_source]
        ⟨.new 0xce, "yay", "Raoul", 50, 3599, 3659, some "h"⟩ 3599
        3600).summary.failure = false ∧
      (schedule_request [sample_source]
        ⟨.new 0xce, "yay", "Raoul", 50, 3599, 3659, some "h"⟩ 3599
        3600).summary.deduped_from =
        some (pack_run_result_key src.request_key (src.try_number.getD 1)) ∧
      (schedule_request [sample_source]
        ⟨.new 0xce, "yay", "Raoul", 50, 3599, 3659, some "h"⟩ 3599
        3600).summary.cost_saved_usd = src.costs_usd.getLast? ∧
      (schedule_request [sample_source]
        ⟨.new 0xce, "yay", "Raoul", 50, 3599, 3659, some "h"⟩ 3599
        3600).summary.costs_usd = [] ∧
      (schedule_request [sample_source]
        ⟨.new 0xce, "yay", "Raoul", 50, 3599, 3659, some "h"⟩ 3599
        3600).summary.properties_hash = none ∧
      (schedule_request [sample_source]
        ⟨.new 0xce, "yay", "Raoul", 50, 3599, 3659, some "h"⟩ 3599
        3600).to_run = none ∧
      (schedule_request [sample_source]
        ⟨.new 0xce, "yay", "Raoul", 50, 3599, 3659, some "h"⟩ 3599
        3600).run_results = []) :=
  ⟨rfl, ⟨sample_source, by simp, by decide⟩,
   C1_dedup_copies_fields [sample_source]
     ⟨.new 0xce, "yay", "Raoul", 50, 3599, 3659, some "h"⟩ "h" 3599 3600 rfl
     ⟨sample_source, by simp, by decide⟩⟩

/-! ## Claim C2: the bot-died retry lifecycle -/

/-- **C2.**  First reap gives try 1; a missed ping window marks the attempt
BOT_DIED with `internal_failure` and returns the summary to PENDING keeping
`try_number = 1` with a re-armed TaskToRun; a different bot then reaps
try 2; a second death makes the summary terminal BOT_DIED with
`internal_failure`. -/
theorem C2_bot_died_retry (r : TaskRequestRec) (age t0 t1 t2 t3 t4 : Int)
    (b1 v1 b2 v2 : String)
    (hdead1 : t1 + BOT_PING_TOLERANCE < t2) (hexp : t2 < r.expiration_ts)
    (hbot : b1 ≠ b2) (hdead2 : t3 + BOT_PING_TOLERANCE < t4) :
    (bot_reap_task (schedule_request [] r t0 age) b1 v1 t1).1.map
        RunResultRec.try_number = some 1 ∧
    (cron_handle_bot_died
        (bot_reap_task (schedule_request [] r t0 age) b1 v1 t1).2
        t2).run_results.map
        (fun rr => (rr.state, rr.internal_failure, rr.try_number)) =
      [(TState.BOT_DIED, true, 1)] ∧
    (cron_handle_bot_died
        (bot_reap_task (schedule_request [] r t0 age) b1 v1 t1).2
        t2).summary.state = TState.PENDING ∧
    (cron_handle_bot_died
        (bot_reap_task (schedule_request [] r t0 age) b1 v1 t1).2
        t2).summary.try_number = some 1 ∧
    (cron_handle_bot_died
        (bot_reap_task (schedule_request [] r t0 age) b1 v1 t1).2
        t2).summary.internal_failure = false ∧
    (cron_handle_bot_died
        (bot_reap_task (schedule_request [] r t0 age) b1 v1 t1).2
        t2).to_run.map TaskToRunRec.queue_number =
      some (some (encodeQueueNumber r)) ∧
    (bot_reap_task
        (cron_handle_bot_died
          (bot_reap_task (schedule_request [] r t0 age) b1 v1 t1).2 t2)
        b2 v2 t3).1.map RunResultRec.try_number = some 2 ∧
    (cron_handle_bot_died
        (bot_reap_task
          (cron_handle_bot_died
            (bot_reap_task (schedule_request [] r t0 age) b1 v1 t1).2 t2)
          b2 v2 t3).2 t4).summary.state = TState.BOT_DIED ∧
    (cron_handle_bot_died
        (bot_reap_task
          (cron_handle_bot_died
            (bot_reap_task (schedule_request [] r t0 age) b1 v1 t1).2 t2)
          b2 v2 t3).2 t4).summary.internal_failure = true ∧
    (cron_handle_bot_died
        (bot_reap_task
          (cron_handle_bot_died
            (bot_reap_task (schedule_request [] r t0 age) b1 v1 t1).2 t2)
          b2 v2 t3).2 t4).summary.try_number = some 2 ∧
    (cron_handle_bot_died
        (bot_reap_task
          (cron_handle_bot_died
            (bot_reap_task (schedule_request [] r t0 age) b1 v1 t1).2 t2)
          b2 v2 t3).2 t4).run_results.map
        (fun rr => (rr.state, rr.try_number)) =
      [(TState.BOT_DIED, 1), (TState.BOT_DIED, 2)] := by
  have h0 : schedule_request [] r t0 age = schedule_fresh r t0 := by
    rw [schedule_request]
    cases r.properties_hash <;> simp [find_dedup]
  rw [h0]
  have hbb : (b1 == b2) = false := by simp [hbot]
  refine ⟨?_, ?_, ?_, ?_, ?_, ?_, ?_, ?_, ?_, ?_, ?_⟩ <;>
    simp [bot_reap_task, schedule_fresh, bot_denied, cron_handle_bot_died,
      dead_bot, set_from_run_result, new_result_summary, new_run_result,
      mergeVersions, hdead1, hexp, hdead2, hbb, Nat.zero_max]

/-- **C2, witness.**  The terminal state of the concrete two-death scenario
(the tests' timeline). -/
theorem C2_bot_died_retry_witness :
    (cron_handle_bot_died
        (bot_reap_task
          (cron_handle_bot_died
            (bot_reap_task
              (schedule_request []
                ⟨.new 0xee, "Request name", "Jesus", 50, 0, 600, none⟩ 0 3600)
              "localhost" "abc" 0).2 301)
          "localhost-second" "abc" 302).2 603).summary.state =
      TState.BOT_DIED :=
  (C2_bot_died_retry ⟨.new 0xee, "Request name", "Jesus", 50, 0, 600, none⟩
    3600 0 0 301 302 603 "localhost" "abc" "localhost-second" "abc"
    (by decide) (by decide) (by decide) (by decide)).2.2.2.2.2.2.2.1

/-! ## Claim C10: expiring a request whose attempt died -/

/-- **C10.**  When the first attempt died and the summary went back to
PENDING, the later expire sweep makes the summary terminal BOT_DIED — not
EXPIRED — with `internal_failure`, the dead bot's identity and
`try_number 1`, and the dead attempt's RunResult is kept. -/
theorem C10_expire_keeps_bot_died (r : TaskRequestRec) (age t0 t1 t2 t3 : Int)
    (b1 v1 : String)
    (hdead : t1 + BOT_PING_TOLERANCE < t2) (hexp1 : t2 < r.expiration_ts)
    (hexp2 : r.expiration_ts ≤ t3) :
    (cron_abort_expired_task_to_run
        (cron_handle_bot_died
          (bot_reap_task (schedule_request [] r t0 age) b1 v1 t1).2 t2)
        t3).summary.state = TState.BOT_DIED ∧
    (cron_abort_expired_task_to_run
        (cron_handle_bot_died
          (bot_reap_task (schedule_request [] r t0 age) b1 v1 t1).2 t2)
        t3).summary.state ≠ TState.EXPIRED ∧
    (cron_abort_expired_task_to_run
        (cron_handle_bot_died
          (bot_reap_task (schedule_request [] r t0 age) b1 v1 t1).2 t2)
        t3).summary.internal_failure = true ∧
    (cron_abort_expired_task_to_run
        (cron_handle_bot_died
          (bot_reap_task (schedule_request [] r t0 age) b1 v1 t1).2 t2)
        t3).summary.bot_id = some b1 ∧
    (cron_abort_expired_task_to_run
        (cron_handle_bot_died
          (bot_reap_task (schedule_request [] r t0 age) b1 v1 t1).2 t2)
        t3).summary.bot_version = some v1 ∧
    (cron_abort_expired_task_to_run
        (cron_handle_bot_died
          (bot_reap_task (schedule_request [] r t0 age) b1 v1 t1).2 t2)
        t3).summary.try_number = some 1 ∧
    (cron_abort_expired_task_to_run
        (cron_handle_bot_died
          (bot_reap_task (schedule_request [] r t0 age) b1 v1 t1).2 t2)
        t3).run_results =
      (cron_handle_bot_died
        (bot_reap_task (schedule_request [] r t0 age) b1 v1 t1).2
        t2).run_results ∧
    (cron_abort_expired_task_to_run
        (cron_handle_bot_died
          (bot_reap_task (schedule_request [] r t0 age) b1 v1 t1).2 t2)
        t3).run_results.map
        (fun rr => (rr.state, rr.internal_failure, rr.try_number)) =
      [(TState.BOT_DIED, true, 1)] := by
  have h0 : schedule_request [] r t0 age = schedule_fresh r t0 := by
    rw [schedule_request]
    cases r.properties_hash <;> simp [find_dedup]
  rw [h0]
  refine ⟨?_, ?_, ?_, ?_, ?_, ?_, ?_, ?_⟩ <;>
    simp [bot_reap_task, schedule_fresh, bot_denied, cron_handle_bot_died,
      cron_abort_expired_task_to_run, dead_bot, set_from_run_result,
      new_result_summary, new_run_result, mergeVersions, hdead, hexp1, hexp2,
      Nat.zero_max]

/-- **C10, witness.**  The dead-then-expired scenario at the tests'
timeline (expiration 600 s, sweeps at 301 s and 600 s). -/
theorem C10_expire_keeps_bot_died_witness :
    (cron_abort_expired_task_to_run
        (cron_handle_bot_died
          (bot_reap_task
            (schedule_request []
              ⟨.new 0xee, "Request name", "Jesus", 50, 0, 600, none⟩ 0 3600)
            "localhost" "abc" 0).2 301)
        600).summary.state = TState.BOT_DIED :=
  (C10_expire_keeps_bot_died
    ⟨.new 0xee, "Request name", "Jesus", 50, 0, 600, none⟩ 3600 0 0 301 600
    "localhost" "abc" (by decide) (by decide) (by decide)).1

/-! # Request expiration validation (from `src/services/swarming/server/task_request.py`) -/

/-- `_MIN_TIMEOUT_SECS` of `task_request.py`. -/
def MIN_TIMEOUT_SECS : Int := 30

/-- `_ONE_DAY_SECS` of `task_request.py`: 24*60*60 + 10. -/
def ONE_DAY_SECS : Int := 24 * 60 * 60 + 10

/-- `task_request._validate_expiration`, embedded from the source: the
offset (the rounded whole-second difference between the expiration and
now) is rejected when `_MIN_TIMEOUT_SECS > offset or _ONE_DAY_SECS <
offset`. -/
def validate_expiration (offset : Int) : Except String Unit :=
  if MIN_TIMEOUT_SECS > offset ∨ ONE_DAY_SECS < offset then
    .error "Invalid expiration_ts"
  else
    .ok ()

/-- The persisted request entities. -/
structure RequestStore where
  reqs : List TaskRequestRec
deriving DecidableEq

/-- `task_request.new_request` (rather, the expiration aspect of
`new_request_clean` / the `TaskRequest` constructor), embedded from the
source: `expiration_ts := now + scheduling_expiration_secs`; the property
validator `_validate_expiration` runs while the entity is constructed, so
a rejected request raises before `_put_request` persists anything.
Timestamps are whole seconds, so the source's `int(round(...))` is the
identity on the offset. -/
def new_request (store : RequestStore) (key : RequestKey) (name user : String)
    (priority : Nat) (props_hash : Option String) (now sched : Int) :
    Except String TaskRequestRec × RequestStore :=
  match validate_expiration (now + sched - now) with
  | .error e => (.error e, store)
  | .ok _ =>
    let r : TaskRequestRec := ⟨key, name, user, priority, now, now + sched, props_hash⟩
    (.ok r, ⟨store.reqs ++ [r]⟩)

/-! ## Claim C9: the expiration window of new_request -/

/-- **C9.**  `new_request` rejects exactly the expiration offsets below
30 s or above 1 day + 10 s (86410 s); every offset in the closed range is
accepted and persisted, and a rejected request persists nothing. -/
theorem C9_expiration_window (store : RequestStore) (key : RequestKey)
    (name user : String) (priority : Nat) (props_hash : Option String)
    (now sched : Int) :
    ((∃ e, (new_request store key name user priority props_hash now sched).1 =
        Except.error e) ↔
      (sched < 30 ∨ 24 * 60 * 60 + 10 < sched)) ∧
    ((sched < 30 ∨ 24 * 60 * 60 + 10 < sched) →
      (new_request store key name user priority props_hash now sched).2 =
        store) ∧
    (30 ≤ sched → sched ≤ 24 * 60 * 60 + 10 →
      (new_request store key name user priority props_hash now sched).1 =
        Except.ok ⟨key, name, user, priority, now, now + sched, props_hash⟩ ∧
      (new_request store key name user priority props_hash now sched).2 =
        ⟨store.reqs ++ [⟨key, name, user, priority, now, now + sched, props_hash⟩]⟩ ∧
      (⟨key, name, user, priority, now, now + sched, props_hash⟩ :
          TaskRequestRec).expiration_ts -
        (⟨key, name, user, priority, now, now + sched, props_hash⟩ :
          TaskRequestRec).created_ts = sched) := by
  have harith : now + sched - now = sched := by omega
  by_cases hrej : sched < 30 ∨ (24 * 60 * 60 + 10 : Int) < sched
  · have hne : new_request store key name user priority props_hash now sched =
        (.error "Invalid expiration_ts", store) := by
      unfold new_request validate_expiration
      rw [harith, if_pos]
      simpa [MIN_TIMEOUT_SECS, ONE_DAY_SECS, gt_iff_lt] using hrej
    rw [hne]
    refine ⟨iff_of_true ⟨"Invalid expiration_ts", rfl⟩ hrej, fun _ => rfl,
      fun h1 h2 => absurd hrej (by omega)⟩
  · have hok : new_request store key name user priority props_hash now sched =
        (.ok ⟨key, name, user, priority, now, now + sched, props_hash⟩,
          ⟨store.reqs ++ [⟨key, name, user, priority, now, now + sched, props_hash⟩]⟩) := by
      unfold new_request validate_expiration
      rw [harith, if_neg]
      intro hc
      exact hrej (by simpa [MIN_TIMEOUT_SECS, ONE_DAY_SECS, gt_iff_lt] using hc)
    rw [hok]
    refine ⟨iff_of_false ?_ hrej, fun hc => absurd hc hrej,
      fun h1 h2 => ⟨rfl, rfl, show now + sched - now = sched by omega⟩⟩
    rintro ⟨e, he⟩
    simp at he

/-- **C9, witness.**  Offset 29 s is rejected without persisting; offset
30 s is accepted. -/
theorem C9_expiration_window_witness :
    ((29 : Int) < 30 ∨ 24 * 60 * 60 + 10 < (29 : Int)) ∧
    (new_request ⟨[]⟩ (.new 0) "n" "u" 50 none 0 29).2 = (⟨[]⟩ : RequestStore) ∧
    (30 : Int) ≤ 30 ∧ (30 : Int) ≤ 24 * 60 * 60 + 10 ∧
    (new_request ⟨[]⟩ (.new 0) "n" "u" 50 none 0 30).1 =
      Except.ok ⟨.new 0, "n", "u", 50, 0, 0 + 30, none⟩ :=
  ⟨Or.inl (by decide),
   (C9_expiration_window ⟨[]⟩ (.new 0) "n" "u" 50 none 0 29).2.1
     (Or.inl (by decide)),
   by decide, by decide,
   ((C9_expiration_window ⟨[]⟩ (.new 0) "n" "u" 50 none 0 30).2.2
     (by decide) (by decide)).1⟩

end Swarming
